import Mathlib

/-!
# A verification model of the `go-store-ipfs` Merkle-trie store

This file is a shallow embedding, in Lean 4, of the core of the
`blocktop/go-store-ipfs` repository: the in-memory trie node/link model
(`nodeFactory.go`), the batched Merkle-trie mutation engine (`merkle.go`),
the dirty-node collector and group commit (`batch.go`), and the
store/store-block lifecycle (`store.go`, `storeBlock.go`).

Modelling conventions:

* Go byte slices become `Option (List Nat)`: `none` is a nil slice, `some l`
  a non-nil slice (possibly empty).  The distinction matters because the
  source explicitly distinguishes nil from empty in `putKey`.
* A node's CID (`cnode`/`path` fields) is modelled as the canonical encoding
  produced by `makeNodeFromObj`: an injective flat `List Nat` encoding of
  the pair `(data, sorted link-name/target-hash map)`, standing in for the
  SHA2-256 CBOR CID.  Hash-string comparisons in the source become equality
  of these encodings.
* Go maps become association lists; `map[string]bool` dirty-flag sets become
  `List String`.
* The external IPFS DAG (`api.Dag().Get/Put`) is an oracle function passed
  to every operation that performs I/O; content-addressed fetches are keyed
  by the hash of the node whose path is resolved plus the path segments.
* Nil-pointer dereferences that the Go runtime would turn into panics are
  modelled as a distinguished `panicNil` outcome, kept separate from error
  returns of the source.
* Functions that mutate nodes in place return the updated node; operations
  on the tree/store state return a `(result, new state)` pair.  In-place
  mutations performed by a Go call that subsequently returns an error are
  not preserved (callers of the model keep the pre-call state on error).
-/

namespace StoreIpfs

/-- A Go byte slice's contents. -/
abbrev Bytes := List Nat

/-- A content hash / CID, modelled as the canonical encoding it is computed
from (SHA2-256 is treated as injective). -/
abbrev Hash := List Nat

/-- Encoding of an optional byte string (nil-vs-present is part of the
encoding). -/
def encOpt : Option Bytes → List Nat
  | none => [0]
  | some l => 1 :: l.length :: l

/-- Encoding of a string as its character codes, length-prefixed. -/
def encStr (s : String) : List Nat :=
  let cs := s.toList.map Char.toNat
  cs.length :: cs

/-- Encoding of one link entry of the CBOR object: name plus target hash
(`none` models `cid.Undef`). -/
def encEntry (p : String × Option Hash) : List Nat :=
  encStr p.1 ++ encOpt p.2

/-- Insert an entry into a list of entries sorted by link name (the CBOR
encoder writes map keys canonically sorted). -/
def insertSorted (p : String × Option Hash) :
    List (String × Option Hash) → List (String × Option Hash)
  | [] => [p]
  | q :: rest => if p.1 < q.1 then p :: q :: rest else q :: insertSorted p rest

/-- Sort link entries by name, as the canonical CBOR encoding does. -/
def sortEntries (l : List (String × Option Hash)) : List (String × Option Hash) :=
  l.foldr insertSorted []

/-- The content hash of a node: deterministic function of `data` and the
name/target-hash map (`cbor.WrapObject(obj, mh.SHA2_256, -1)` in
`makeNodeFromObj`). -/
def mkHash (data : Option Bytes) (links : List (String × Option Hash)) : Hash :=
  let sorted := sortEntries links
  encOpt data ++ sorted.length :: (sorted.map encEntry).flatten

mutual
/-- The in-memory trie node, Go struct `node` of `nodeFactory.go`:
`data`, `links`, `cnode` (the node's CID, which also determines `path`),
`changedLinks`, `changedData`, `fromIPFS`. -/
inductive MNode : Type where
  | mk (data : Option Bytes) (links : MLinks) (cnode : Hash)
       (changedLinks : List String) (changedData : Bool) (fromIPFS : Bool)

/-- The `links map[string]*link` field, as an association list from map key
to link. -/
inductive MLinks : Type where
  | nil
  | cons (k : String) (l : MLink) (rest : MLinks)

/-- Go struct `link`: `key`, `targetNode` (a possibly-nil node pointer) and
`targetCid` (`none` models `cid.Undef`). -/
inductive MLink : Type where
  | mk (key : String) (target : MTarget) (targetCid : Option Hash)

/-- A possibly-nil `*node` pointer. -/
inductive MTarget : Type where
  | nil
  | node (n : MNode)
end

/-- `node.data`. -/
def MNode.data : MNode → Option Bytes
  | .mk d _ _ _ _ _ => d

/-- `node.links`. -/
def MNode.links : MNode → MLinks
  | .mk _ ls _ _ _ _ => ls

/-- `node.cnode` (the CID / canonical encoding). -/
def MNode.cnode : MNode → Hash
  | .mk _ _ c _ _ _ => c

/-- `node.changedLinks`, as the list of link names flagged true. -/
def MNode.changedLinks : MNode → List String
  | .mk _ _ _ cl _ _ => cl

/-- `node.changedData`. -/
def MNode.changedData : MNode → Bool
  | .mk _ _ _ _ cd _ => cd

/-- `node.fromIPFS`. -/
def MNode.fromIPFS : MNode → Bool
  | .mk _ _ _ _ _ f => f

/-- `link.key`. -/
def MLink.key : MLink → String
  | .mk k _ _ => k

/-- `link.targetNode`. -/
def MLink.target : MLink → MTarget
  | .mk _ t _ => t

/-- `link.targetCid`. -/
def MLink.targetCid : MLink → Option Hash
  | .mk _ _ c => c

/-- Field reduction for `data`. -/
@[simp] theorem MNode.data_mk (d : Option Bytes) (ls : MLinks) (c : Hash)
    (cl : List String) (cd f : Bool) : (MNode.mk d ls c cl cd f).data = d := rfl

/-- Field reduction for `links`. -/
@[simp] theorem MNode.links_mk (d : Option Bytes) (ls : MLinks) (c : Hash)
    (cl : List String) (cd f : Bool) : (MNode.mk d ls c cl cd f).links = ls := rfl

/-- Field reduction for `cnode`. -/
@[simp] theorem MNode.cnode_mk (d : Option Bytes) (ls : MLinks) (c : Hash)
    (cl : List String) (cd f : Bool) : (MNode.mk d ls c cl cd f).cnode = c := rfl

/-- Field reduction for `changedLinks`. -/
@[simp] theorem MNode.changedLinks_mk (d : Option Bytes) (ls : MLinks) (c : Hash)
    (cl : List String) (cd f : Bool) : (MNode.mk d ls c cl cd f).changedLinks = cl := rfl

/-- Field reduction for `changedData`. -/
@[simp] theorem MNode.changedData_mk (d : Option Bytes) (ls : MLinks) (c : Hash)
    (cl : List String) (cd f : Bool) : (MNode.mk d ls c cl cd f).changedData = cd := rfl

/-- Field reduction for `fromIPFS`. -/
@[simp] theorem MNode.fromIPFS_mk (d : Option Bytes) (ls : MLinks) (c : Hash)
    (cl : List String) (cd f : Bool) : (MNode.mk d ls c cl cd f).fromIPFS = f := rfl

/-- Field reduction for `key`. -/
@[simp] theorem MLink.key_mk (k : String) (t : MTarget) (cid : Option Hash) :
    (MLink.mk k t cid).key = k := rfl

/-- Field reduction for `target`. -/
@[simp] theorem MLink.target_mk (k : String) (t : MTarget) (cid : Option Hash) :
    (MLink.mk k t cid).target = t := rfl

/-- Field reduction for `targetCid`. -/
@[simp] theorem MLink.targetCid_mk (k : String) (t : MTarget) (cid : Option Hash) :
    (MLink.mk k t cid).targetCid = cid := rfl

/-- Map lookup `links[k]` (`nil` map and missing key both give `none`). -/
def MLinks.find? : MLinks → String → Option MLink
  | .nil, _ => none
  | .cons k0 l rest, k => if k0 = k then some l else rest.find? k

/-- Map assignment `links[k] = l`: replace the entry for `k` or append a
fresh one. -/
def MLinks.set : MLinks → String → MLink → MLinks
  | .nil, k, l => .cons k l .nil
  | .cons k0 l0 rest, k, l =>
    if k0 = k then .cons k0 l rest else .cons k0 l0 (rest.set k l)

/-- The entries of the link map, in representation order. -/
def MLinks.entries : MLinks → List (String × MLink)
  | .nil => []
  | .cons k l rest => (k, l) :: rest.entries

/-- `changedLinks[k] = true` (set insertion). -/
def addFlag (k : String) (cl : List String) : List String :=
  if k ∈ cl then cl else k :: cl

/-- Byte-slice content, as compared by `bytes.Compare` (nil and empty are
equal by content). -/
def optBytes : Option Bytes → Bytes
  | none => []
  | some l => l

/-- Replace the `fromIPFS` flag (set by `getObj` on every fetched node). -/
def MNode.setFromIPFS : MNode → Bool → MNode
  | .mk d ls c cl cd _, f => .mk d ls c cl cd f

/-- Outcomes of the modelled operations.  The source returns `error`
strings; nil-pointer dereferences (which panic at runtime in Go) are kept
distinct as `panicNil`. -/
inductive PErr : Type where
  | panicNil
  | encoding
  | fetchFail
  | noSuchLink
  | notInBatch
  | alreadyInBatch
  | alreadyOpen
  | notOpen
  | seqMismatch
  | nothingSubmitted
  | noDataForLink (k : String)
  | storeFail
  | fileFail
  deriving DecidableEq, Repr

/-- Result of a DAG fetch (`getObj`): a node, the `cbor.ErrNoSuchLink`
signal, or a transport failure. -/
inductive FetchR : Type where
  | found (n : MNode)
  | missing
  | fail

/-- The external content-addressed store, as an oracle: a path is the hash
of the node being resolved plus the path segments appended to it. -/
abbrev Fetch := Hash → List String → FetchR

/-- `getObj`: fetch and decode a node at a path; sets `fromIPFS` on
success, surfaces `ErrNoSuchLink` and transport failures. -/
def getObj (F : Fetch) (h : Hash) (segs : List String) : Except PErr MNode :=
  match F h segs with
  | .found n => .ok (n.setFromIPFS true)
  | .missing => .error .noSuchLink
  | .fail => .error .fetchFail

/-- The reserved data field name (`const val = "val"`). -/
def valKey : String := "val"

/-- The hash a link contributes to its parent's encoding: the resolved
target's CID when loaded, the stored `targetCid` otherwise
(`makeNodeFromObj`'s `obj[k] = ...`). -/
def MLink.hashRef : MLink → Option Hash
  | .mk _ (.node n) _ => some n.cnode
  | .mk _ .nil cid => cid

/-- `makeNodeFromObj(data, links)`: build a node, computing its CID from
`data` and the link map; fails when a link name collides with the reserved
`val` field. -/
def makeNodeFromObj (data : Option Bytes) (links : MLinks) : Except PErr MNode :=
  if (links.entries.map Prod.fst).contains valKey then .error .encoding
  else
    .ok (MNode.mk data links
      (mkHash data (links.entries.map fun p => (p.1, p.2.hashRef)))
      [] false false)

/-- `recomputeNode(n)`: re-derive `cnode`/`path` from the current `data` and
`links`, keeping all other fields. -/
def recomputeNode (n : MNode) : Except PErr MNode :=
  match makeNodeFromObj n.data n.links with
  | .error e => .error e
  | .ok n2 =>
    .ok (MNode.mk n.data n.links n2.cnode n.changedLinks n.changedData n.fromIPFS)

/-- Unresolved copies of a link map, as produced by decoding a node's raw
encoding (`makeNodeFromCBOR`): every link keeps only its target hash. -/
def MLinks.unresolve : MLinks → MLinks
  | .nil => .nil
  | .cons k l rest => .cons k (MLink.mk k .nil l.hashRef) rest.unresolve

/-- Decoding a node's own raw encoding back into a structurally independent
node (`cbor.Decode` + `makeNodeFromCBOR` in `StartBatch`): same `data` and
CID, all links unresolved, flags cleared, `fromIPFS` false.  A nil `data`
encodes as CBOR null, whose string type-assertion in `makeNodeFromCBOR`
panics. -/
def decodeCopy (n : MNode) : Except PErr MNode :=
  match n.data with
  | none => .error .panicNil
  | some d => .ok (MNode.mk (some d) n.links.unresolve n.cnode [] false false)

/-- A value passed to `put`: a byte slice (`valueIsLink = false`) or a link
(`valueIsLink = true`). -/
inductive PutVal : Type where
  | bytes (v : Option Bytes)
  | lnk (l : MLink)

/-- The terminal (`len(key) == 0`) case of `putKey`.  For a link value the
source compares `n.links[ln.key].targetNode.cnode.String()` with
`ln.targetNode.cnode.String()`; dereferencing a nil `targetNode` panics.
For a byte value, `changedData` is assigned from the content comparison,
but `change` (which drives the hash recompute) is only set in the
nil-versus-non-nil mismatch branch. -/
def putKeyTerminal (n : MNode) (v : PutVal) : Except PErr MNode :=
  match v with
  | .lnk ln =>
    match n.links.find? ln.key with
    | none =>
      recomputeNode (MNode.mk n.data (n.links.set ln.key ln) n.cnode
        (addFlag ln.key n.changedLinks) n.changedData n.fromIPFS)
    | some ex =>
      match ex.target with
      | .nil => .error .panicNil
      | .node exN =>
        match ln.target with
        | .nil => .error .panicNil
        | .node lnN =>
          if exN.cnode ≠ lnN.cnode then
            recomputeNode (MNode.mk n.data (n.links.set ln.key ln) n.cnode
              (addFlag ln.key n.changedLinks) n.changedData n.fromIPFS)
          else .ok n
  | .bytes v =>
    if (v.isNone && !n.data.isNone) || (!v.isNone && n.data.isNone) then
      recomputeNode (MNode.mk v n.links n.cnode n.changedLinks true n.fromIPFS)
    else
      .ok (MNode.mk v n.links n.cnode n.changedLinks
        (decide (optBytes v ≠ optBytes n.data)) n.fromIPFS)

/-- `if n.links[k] == nil { n.links[k] = &link{key: k} }`: ensure a link
entry exists, returning the (possibly extended) map and the entry. -/
def ensureLink (links : MLinks) (k : String) : MLinks × MLink :=
  match links.find? k with
  | some l => (links, l)
  | none => (links.set k (MLink.mk k .nil none), MLink.mk k .nil none)

/-- The "search IPFS for target" step of `putKey`: when the target is not
loaded and the node came from IPFS, try to fetch the child at path
`n.path + "/" + k`; `ErrNoSuchLink` is tolerated, other errors abort. -/
def fetchStep (F : Fetch) (n : MNode) (k : String) (lnk : MLink) : Except PErr MLink :=
  match lnk.target, n.fromIPFS with
  | .nil, true =>
    match getObj F n.cnode [k] with
    | .ok nk => .ok (MLink.mk lnk.key (.node nk) lnk.targetCid)
    | .error .noSuchLink => .ok lnk
    | .error e => .error e
  | _, _ => .ok lnk

/-- The tail of `putKey`'s recursive case: write the (updated) link back
into the map and, when a change happened, flag the edge dirty and recompute
the node's hash. -/
def finishPut (n : MNode) (links2 : MLinks) (k : String) (change : Bool) :
    Except PErr MNode :=
  if change then
    recomputeNode (MNode.mk n.data links2 n.cnode (addFlag k n.changedLinks)
      n.changedData n.fromIPFS)
  else
    .ok (MNode.mk n.data links2 n.cnode n.changedLinks n.changedData n.fromIPFS)

/-- `makeChild`: synthesize a fresh chain of nodes for the remaining key
suffix, attaching the value (or link) at its end, with the corresponding
dirty flags set. -/
def makeChild : List Char → PutVal → Except PErr MNode
  | [], .lnk ln =>
    match makeNodeFromObj none (MLinks.cons ln.key ln .nil) with
    | .error e => .error e
    | .ok n =>
      .ok (MNode.mk n.data n.links n.cnode (addFlag ln.key n.changedLinks)
        n.changedData n.fromIPFS)
  | [], .bytes v =>
    match makeNodeFromObj v .nil with
    | .error e => .error e
    | .ok n =>
      .ok (MNode.mk n.data n.links n.cnode n.changedLinks true n.fromIPFS)
  | c :: krest, v =>
    match makeChild krest v with
    | .error e => .error e
    | .ok nk =>
      let k := String.singleton c
      match makeNodeFromObj none (MLinks.cons k (MLink.mk k (.node nk) none) .nil) with
      | .error e => .error e
      | .ok n =>
        .ok (MNode.mk n.data n.links n.cnode (addFlag k n.changedLinks)
          n.changedData n.fromIPFS)

/-- `merkleTreeBatch.putKey`: descend the trie one key character at a time,
fetching unloaded children of IPFS-sourced nodes, synthesizing missing
subtrees via `makeChild`, writing the value at the terminal node, and
propagating hash recomputes and dirty-link flags upward whenever the
child's CID changed. -/
def putKey (F : Fetch) : MNode → List Char → PutVal → Except PErr MNode
  | n, [], v => putKeyTerminal n v
  | n, c :: krest, v =>
    let k := String.singleton c
    match ensureLink n.links k with
    | (links1, lnk0) =>
      match fetchStep F n k lnk0 with
      | .error e => .error e
      | .ok lnk1 =>
        match lnk1.target with
        | .nil =>
          match makeChild krest v with
          | .error e => .error e
          | .ok nk =>
            finishPut n (links1.set k (MLink.mk lnk1.key (.node nk) lnk1.targetCid))
              k true
        | .node tn =>
          match putKey F tn krest v with
          | .error e => .error e
          | .ok nk =>
            finishPut n (links1.set k (MLink.mk lnk1.key (.node nk) lnk1.targetCid))
              k (decide (nk.cnode ≠ tn.cnode))

/-- `merkleTreeStruct.getKey`: walk the batch graph one character at a
time.  A missing or unresolved child is fetched unconditionally at path
`n.path + "/" + k` (any fetch error, including `ErrNoSuchLink`, is
returned to the caller), and the fetched child is cached into the link.
Returns the updated node together with the node found at the key. -/
def getKey (F : Fetch) : MNode → List Char → Except PErr (MNode × MNode)
  | n, [] => .ok (n, n)
  | n, c :: krest =>
    let k := String.singleton c
    match n.links.find? k with
    | some l =>
      match l.target with
      | .node tn =>
        match getKey F tn krest with
        | .error e => .error e
        | .ok (tn', found) =>
          .ok (MNode.mk n.data (n.links.set k (MLink.mk l.key (.node tn') l.targetCid))
                n.cnode n.changedLinks n.changedData n.fromIPFS, found)
      | .nil =>
        match getObj F n.cnode [k] with
        | .error e => .error e
        | .ok nk =>
          match getKey F nk krest with
          | .error e => .error e
          | .ok (tn', found) =>
            .ok (MNode.mk n.data (n.links.set k (MLink.mk l.key (.node tn') l.targetCid))
                  n.cnode n.changedLinks n.changedData n.fromIPFS, found)
    | none =>
      match getObj F n.cnode [k] with
      | .error e => .error e
      | .ok nk =>
        match getKey F nk krest with
        | .error e => .error e
        | .ok (tn', found) =>
          .ok (MNode.mk n.data (n.links.set k (MLink.mk k (.node tn') none))
                n.cnode n.changedLinks n.changedData n.fromIPFS, found)

/-- The per-tree state of `merkleTreeStruct`: the lock flag, the persisted
root and the batch root (`m.batch` is nil between batches). -/
structure MTState : Type where
  locked : Bool
  root : MNode
  batchRoot : Option MNode

/-- `merkleTreeStruct.StartBatch`: refuse when already in batch; otherwise
lock and decode a structurally independent copy of the persisted root as
the batch root.  The lock is taken before decoding, as in the source. -/
def StartBatch (s : MTState) : Except PErr MNode × MTState :=
  if s.locked then (.error .alreadyInBatch, s)
  else
    match decodeCopy s.root with
    | .error e => (.error e, { s with locked := true })
    | .ok broot => (.ok broot, ⟨true, s.root, some broot⟩)

/-- `merkleTreeStruct.CommitBatch`: the batch root becomes the persisted
root and the batch is cleared. -/
def CommitBatch (s : MTState) : Except PErr Unit × MTState :=
  if !s.locked then (.error .notInBatch, s)
  else
    match s.batchRoot with
    | none => (.error .panicNil, s)
    | some br => (.ok (), ⟨false, br, none⟩)

/-- `merkleTreeStruct.RevertBatch`: discard the batch, clear the lock, keep
the persisted root. -/
def RevertBatch (s : MTState) : Except PErr Unit × MTState :=
  if !s.locked then (.error .notInBatch, s)
  else (.ok (), ⟨false, s.root, none⟩)

/-- `merkleTreeStruct.put`: requires an open batch, then runs `putKey`
against the batch root and stores the returned root. -/
def put (F : Fetch) (s : MTState) (key : List Char) (v : PutVal) :
    Except PErr Unit × MTState :=
  if !s.locked then (.error .notInBatch, s)
  else
    match s.batchRoot with
    | none => (.error .panicNil, s)
    | some root =>
      match putKey F root key v with
      | .error e => (.error e, s)
      | .ok root' => (.ok (), { s with batchRoot := some root' })

/-- A batch-mode sequence of puts, as a caller would issue them. -/
def applyPuts (F : Fetch) (ops : List (List Char × PutVal)) (s : MTState) : MTState :=
  ops.foldl (fun st op => (put F st op.1 op.2).2) s

/-- `merkleTreeStruct.getNodeFromBatch`: requires an open batch, walks the
batch graph with `getKey` (whose caching updates the batch root), then
optionally resolves one extra named link. -/
def getNodeFromBatch (F : Fetch) (s : MTState) (key : List Char) (linkName : String) :
    Except PErr (Option MNode) × MTState :=
  if !s.locked then (.error .notInBatch, s)
  else
    match s.batchRoot with
    | none => (.error .panicNil, s)
    | some root =>
      match getKey F root key with
      | .error e => (.error e, s)
      | .ok (root', n) =>
        let s' := { s with batchRoot := some root' }
        if linkName = "" then (.ok (some n), s')
        else
          match n.links.find? linkName with
          | none => (.ok none, s')
          | some lnk =>
            match lnk.target with
            | .node tn => (.ok (some tn), s')
            | .nil =>
              match lnk.targetCid with
              | none => (.ok none, s')
              | some c =>
                match getObj F c [] with
                | .error e => (.error e, s')
                | .ok n' => (.ok (some n'), s')

/-- The path segments of the non-batch lookup in `getNode`: one segment per
key character, plus the optional link name. -/
def nbSegs (key : List Char) (linkName : String) : List String :=
  key.map String.singleton ++ (if linkName = "" then [] else [linkName])

/-- The non-batch branch of `merkleTreeStruct.getNode`: a direct path-based
lookup against the persisted root; `ErrNoSuchLink` maps to an absent
result, other errors are surfaced. -/
def getNodeNB (F : Fetch) (s : MTState) (key : List Char) (linkName : String) :
    Except PErr (Option MNode) :=
  match getObj F s.root.cnode (nbSegs key linkName) with
  | .error .noSuchLink => .ok none
  | .error e => .error e
  | .ok n => .ok (some n)

/-- `merkleTreeStruct.getNode`, dispatching on `inBatch`. -/
def getNode (F : Fetch) (s : MTState) (key : List Char) (linkName : String)
    (inBatch : Bool) : Except PErr (Option MNode) × MTState :=
  if inBatch then getNodeFromBatch F s key linkName
  else (getNodeNB F s key linkName, s)

mutual
/-- Size of a node, counting its link targets and dirty-link flags (used as
the termination measure of the collector walk). -/
def nsize : MNode → Nat
  | .mk _ ls _ cl _ _ => 1 + lsize ls + cl.length

/-- Size of a link map. -/
def lsize : MLinks → Nat
  | .nil => 0
  | .cons _ (.mk _ t _) rest => 1 + tsize t + lsize rest

/-- Size of a link target. -/
def tsize : MTarget → Nat
  | .nil => 0
  | .node n => 1 + nsize n
end

/-- A found link's target is smaller than the whole link map. -/
theorem find?_target_size : ∀ {ls : MLinks} {k : String} {l : MLink},
    ls.find? k = some l → tsize l.target < lsize ls
  | .nil, _, _, h => by simp [MLinks.find?] at h
  | .cons k0 l0 rest, k, l, h => by
    unfold MLinks.find? at h
    split at h
    · cases h
      cases l0 with
      | mk key t cid => simp [lsize, MLink.target]; omega
    · have := @find?_target_size rest k l h
      cases l0 with
      | mk key t cid => simp [lsize]; omega

/-- The `nodeIndex map[string]int` of `batch.commit`, as an association
list; absent keys read as 0. -/
abbrev Idx := List (Hash × Nat)

/-- `nodeIndex[h]` with the zero default of a Go map read. -/
def idxGet : Idx → Hash → Nat
  | [], _ => 0
  | (h0, v) :: rest, h => if h0 = h then v else idxGet rest h

mutual
/-- `collectChangedNodes(n, nodes, nodeIndex)`: when the node has dirty
links it is appended (and indexed) up front and each dirty link's target is
visited unless already indexed; a node dirty only by data is appended after
the (empty) loop.  Missing link entries for a dirty flag dereference a nil
`*link` (panic); a dirty link with an unresolved target is the
"no data for changed link" error. -/
def collectChangedNodes (n : MNode) (nodes : List (Option MNode)) (nodeIndex : Idx) :
    Except PErr (List (Option MNode) × Idx) :=
  match h : n.changedLinks with
  | [] =>
    if n.changedData then
      .ok (nodes ++ [some n], (n.cnode, nodes.length) :: nodeIndex)
    else .ok (nodes, nodeIndex)
  | k :: ks =>
    collectLinks n.links (k :: ks) (nodes ++ [some n]) ((n.cnode, nodes.length) :: nodeIndex)
termination_by 2 * nsize n
decreasing_by
  cases n with
  | mk d ls c cl cd f =>
    simp_all [MNode.changedLinks, MNode.links, nsize]
    omega

/-- The `for k := range n.changedLinks` loop body of `collectChangedNodes`
over the remaining dirty-link names. -/
def collectLinks (links : MLinks) (ks : List String) (nodes : List (Option MNode))
    (nodeIndex : Idx) : Except PErr (List (Option MNode) × Idx) :=
  match ks with
  | [] => .ok (nodes, nodeIndex)
  | k :: ks' =>
    match hf : links.find? k with
    | none => .error .panicNil
    | some l =>
      match ht : l.target with
      | .nil => .error (.noDataForLink k)
      | .node tn =>
        if idxGet nodeIndex tn.cnode = 0 then
          match collectChangedNodes tn nodes nodeIndex with
          | .error e => .error e
          | .ok (nodes', idx') => collectLinks links ks' nodes' idx'
        else collectLinks links ks' nodes nodeIndex
termination_by 2 * lsize links + 2 * ks.length + 1
decreasing_by
  · have h1 := find?_target_size hf
    rw [ht] at h1
    simp [tsize] at h1
    simp [List.length_cons]
    omega
  · simp [List.length_cons]
  · simp [List.length_cons]
end

/-- `const dagBatchSize = 700`. -/
def dagBatchSize : Nat := 700

/-- The group-write loop of `batch.commit`: proceeding from the end of the
collected list toward the root, write one DAG batch of at most
`dagBatchSize` nodes and commit it; the `groupOk` oracle decides whether
the g-th `dagBatch.Commit` call succeeds. -/
def commitGroups (groupOk : Nat → Bool) : Nat → Nat → Except PErr Unit
  | _, 0 => .ok ()
  | g, starti + 1 =>
    if groupOk g then commitGroups groupOk (g + 1) ((starti + 1) - dagBatchSize)
    else .error .storeFail
termination_by _ s => s
decreasing_by
  simp [dagBatchSize]
  omega

/-- `batch.commit(ctx, api, root)`: collect the changed nodes (with the
sentinel nil at index 0) and write them to the external store from the
leaves up, in bounded groups. -/
def batchCommit (groupOk : Nat → Bool) (root : MNode) :
    Except PErr (List (Option MNode)) :=
  match collectChangedNodes root [none] [] with
  | .error e => .error e
  | .ok (nodes, _) =>
    match commitGroups groupOk 0 (nodes.length - 1) with
    | .error e => .error e
    | .ok _ => .ok nodes

/-- Go struct `storeBlock`. -/
structure SB : Type where
  parent : MNode
  blockNumber : Nat
  merkleRoot : MNode
  blockHeader : Option MNode
  opened : Bool
  readonly : Bool

/-- The state of the `store` singleton: persisted root, root pointer file
contents, merkle tree state, the open store block, and the configured pin
flag. -/
structure StoreState : Type where
  root : MNode
  rootFile : Option Hash
  merkle : MTState
  storeBlock : Option SB
  pin : Bool

/-- `newstoreBlock(parent, blockNumber)`: start a merkle batch and build the
block structure.  Note that the `opened` field is left at its zero value. -/
def newstoreBlock (parent : MNode) (blockNumber : Nat) (mt : MTState) :
    Except PErr SB × MTState :=
  match StartBatch mt with
  | (.error e, mt') => (.error e, mt')
  | (.ok broot, mt') => (.ok ⟨parent, blockNumber, broot, none, false, false⟩, mt')

/-- `store.OpenBlock(blockNumber)`: refuse when a block is already open,
otherwise create the store block and remember it. -/
def OpenBlock (s : StoreState) (blockNumber : Nat) : Except PErr SB × StoreState :=
  match s.storeBlock with
  | some _ => (.error .alreadyOpen, s)
  | none =>
    match newstoreBlock s.root blockNumber s.merkle with
    | (.error e, mt') => (.error e, { s with merkle := mt' })
    | (.ok sb, mt') => (.ok sb, { s with merkle := mt', storeBlock := some sb })

/-- `storeBlock.IsOpen()`: `(false, ^uint64(0))` when not opened. -/
def SB.IsOpen (sb : SB) : Bool × Nat :=
  if !sb.opened then (false, 2 ^ 64 - 1) else (true, sb.blockNumber)

/-- The body of `storeBlock.Submit` after its two guards: marshalling the
domain block, its transactions and accounts through the external
`spec.Block` interface, writing the derived trie entries, and assembling
the composite block-header node.  It is external domain behaviour, passed
in as an oracle. -/
def SubmitBody := SB → Except PErr (Hash × SB)

/-- `storeBlock.Submit(block)`: fails when the block is not open, or when
the submitted block's number disagrees with the open one; otherwise runs
the marshalling/put body. -/
def Submit (body : SubmitBody) (sb : SB) (blockNumber : Nat) :
    Except PErr (Hash × SB) :=
  if !(sb.IsOpen).1 then .error .notOpen
  else if blockNumber ≠ sb.blockNumber then .error .seqMismatch
  else body sb

/-- `store.setRoot(root)`: install the new in-memory root (and its hash),
then rewrite the root pointer file; `writeOk` is the oracle for
`writeRootFile`'s file I/O. -/
def setRoot (writeOk : Bool) (s : StoreState) (root : MNode) :
    Except PErr Unit × StoreState :=
  let s1 := { s with root := root }
  if writeOk then (.ok (), { s1 with rootFile := some root.cnode })
  else (.error .fileFail, s1)

/-- `storeBlock.Commit()`: guards, then `batch.commit` on the block header,
optional pinning, `CommitBatch` on the merkle tree, `setRoot` (which
rewrites the pointer file), and finally `Store.reset()` plus clearing
`opened`. -/
def Commit (groupOk : Nat → Bool) (pinOk : Bool) (writeOk : Bool)
    (s : StoreState) (sb : SB) : Except PErr Unit × StoreState × SB :=
  if !(sb.IsOpen).1 then (.error .notOpen, s, sb)
  else
    match sb.blockHeader with
    | none => (.error .nothingSubmitted, s, sb)
    | some bh =>
      match batchCommit groupOk bh with
      | .error e => (.error e, s, sb)
      | .ok _ =>
        if s.pin && !pinOk then (.error .storeFail, s, sb)
        else
          match CommitBatch s.merkle with
          | (.error e, mt') => (.error e, { s with merkle := mt' }, sb)
          | (.ok _, mt') =>
            match setRoot writeOk { s with merkle := mt' } bh with
            | (.error e, s') => (.error e, s', sb)
            | (.ok _, s') =>
              (.ok (), { s' with storeBlock := none }, { sb with opened := false })

/-- `storeBlock.Revert()`: guard, revert the merkle batch, reset the store
and clear `opened`. -/
def Revert (s : StoreState) (sb : SB) : Except PErr Unit × StoreState × SB :=
  if !(sb.IsOpen).1 then (.error .notOpen, s, sb)
  else
    match RevertBatch s.merkle with
    | (.error e, mt') => (.error e, { s with merkle := mt' }, sb)
    | (.ok _, mt') =>
      (.ok (), { s with merkle := mt', storeBlock := none }, { sb with opened := false })

/-- `makeSpecLinks`: link names mapped to target hashes (resolved target's
CID when loaded, stored `targetCid` otherwise). -/
def makeSpecLinks : MLinks → List (String × Option Hash)
  | .nil => []
  | .cons k l rest =>
    (k, match l.target with
        | .node n => some n.cnode
        | .nil => l.targetCid) :: makeSpecLinks rest

/-- Outcome of a `TreeGet` call: the unmarshalled data/links, a returned
error, or a Go runtime panic from dereferencing a nil node. -/
inductive TGRes : Type where
  | value (data : Option Bytes) (links : List (String × Option Hash))
  | errv (e : PErr)
  | panicked
  deriving DecidableEq, Repr

/-- `store.TreeGet(key, obj)`: non-batch lookup, then unconditionally
`obj.Unmarshal(n.data, makeSpecLinks(n.links))` — when the lookup returned
no node and no error, `n.data` dereferences a nil pointer. -/
def storeTreeGet (F : Fetch) (s : StoreState) (key : List Char) : TGRes :=
  match getNodeNB F s.merkle key "" with
  | .error e => .errv e
  | .ok none => .panicked
  | .ok (some n) => .value n.data (makeSpecLinks n.links)

/-- `storeBlock.TreeGet(key, obj)`: the same unmarshalling against the
batch-mode lookup. -/
def storeBlockTreeGet (F : Fetch) (s : StoreState) (key : List Char) :
    TGRes × StoreState :=
  match getNodeFromBatch F s.merkle key "" with
  | (.error e, mt') => (.errv e, { s with merkle := mt' })
  | (.ok none, mt') => (.panicked, { s with merkle := mt' })
  | (.ok (some n), mt') =>
    (.value n.data (makeSpecLinks n.links), { s with merkle := mt' })

/-! ## Concrete fixtures for counterexamples and witnesses -/

/-- A fetch oracle for which every path is absent. -/
def noFetch : Fetch := fun _ _ => .missing

/-- A small leaf node holding byte value `[1]`. -/
def exLeaf : MNode := .mk (some [1]) .nil (mkHash (some [1]) []) [] false false

/-- A clean root holding one resolved link `"a"` to `exLeaf` (the state of a
batch in which the path `"a"` has been walked). -/
def exRoot : MNode :=
  .mk (some [9]) (.cons "a" (.mk "a" (.node exLeaf) none) .nil)
    (mkHash (some [9]) [("a", some (mkHash (some [1]) []))]) [] false false

/-- A store whose merkle tree holds `exRoot` with no open batch. -/
def exStore : StoreState :=
  ⟨exRoot, some exRoot.cnode, ⟨false, exRoot, none⟩, none, false⟩

/-! ## C1 -/

/-- C1: putting byte value `[2]` at key `"a"`, whose terminal node `exLeaf`
exists and holds the different non-nil data `[1]`, replaces the data and
sets `dirty_data`, but the terminal node's content hash is NOT recomputed
(it keeps `exLeaf`'s hash) and the root gains no `dirty_links` entry and
keeps its own hash: the `change` flag is never set in the non-nil/non-nil
branch of `putKey`, contradicting the claim. -/
theorem c1_value_overwrite_skips_recompute :
    ∃ n, putKey noFetch exRoot ['a'] (.bytes (some [2])) = .ok n ∧
      n.cnode = exRoot.cnode ∧ n.changedLinks = [] ∧
      ∃ l tn, n.links.find? "a" = some l ∧ l.target = .node tn ∧
        tn.data = some [2] ∧ tn.changedData = true ∧ tn.cnode = exLeaf.cnode := by
  exact ⟨_, rfl, rfl, rfl, _, _, rfl, rfl, rfl, rfl, rfl⟩

/-! ## C3 -/

/-- C3: after `OpenBlock` succeeds on a closed store, the returned store
block still has `opened = false` (the field is never set), so `Submit` with
the matching block number 5 fails with the not-open error rather than
proceeding: the open state is never entered. -/
theorem c3_submit_after_open_fails_not_open :
    ∃ sb st', OpenBlock exStore 5 = (.ok sb, st') ∧ sb.opened = false ∧
      ∀ body : SubmitBody, Submit body sb 5 = .error .notOpen := by
  exact ⟨_, _, rfl, rfl, fun _ => rfl⟩

/-! ## C5 -/

/-- The target node of the new link in the C5 scenario. -/
def c5Target : MNode := .mk (some [7]) .nil (mkHash (some [7]) []) [] false false

/-- A terminal node holding an unresolved link `"x"` (target hash only, no
loaded node), as produced by decoding a persisted node. -/
def c5Terminal : MNode :=
  .mk none (.cons "x" (.mk "x" .nil (some (mkHash (some [7]) []))) .nil)
    (mkHash none [("x", some (mkHash (some [7]) []))]) [] false false

/-- A root reaching `c5Terminal` through the resolved link `"a"`. -/
def c5Root : MNode :=
  .mk (some [9]) (.cons "a" (.mk "a" (.node c5Terminal) none) .nil)
    (mkHash (some [9]) [("a", some c5Terminal.cnode)]) [] false false

/-- C5: putting a link named `"x"` at key `"a"` when the terminal node's
existing link `"x"` is unresolved in memory does NOT complete by comparing
persisted hash strings: `putKey` dereferences the existing link's nil
`targetNode` and panics; the crash branch is reachable. -/
theorem c5_unresolved_existing_link_panics :
    c5Terminal.links.find? "x" = some (.mk "x" .nil (some c5Target.cnode)) ∧
    putKey noFetch c5Root ['a'] (.lnk (.mk "x" (.node c5Target) none)) =
      .error .panicNil := by
  exact ⟨rfl, rfl⟩

/-! ## C9 -/

/-- C9: protocol misuse is rejected without starting work: `put` with no
open batch fails with the not-in-batch error and leaves the tree state
unchanged; `StartBatch` on a tree already in batch fails with the
already-in-batch error and does not start a second batch; `OpenBlock` on a
store with an open block fails with the already-open error and leaves the
store unchanged. -/
theorem c9_protocol_misuse_rejected :
    (∀ (F : Fetch) (s : MTState) (key : List Char) (v : PutVal),
      s.locked = false → put F s key v = (.error .notInBatch, s)) ∧
    (∀ s : MTState, s.locked = true → StartBatch s = (.error .alreadyInBatch, s)) ∧
    (∀ (st : StoreState) (sb : SB) (n : Nat), st.storeBlock = some sb →
      OpenBlock st n = (.error .alreadyOpen, st)) := by
  refine ⟨fun F s key v h => ?_, fun s h => ?_, fun st sb n h => ?_⟩
  · simp [put, h]
  · simp [StartBatch, h]
  · simp [OpenBlock, h]

/-- Witness for C9 at concrete states. -/
theorem c9_protocol_misuse_rejected_witness :
    put noFetch ⟨false, exRoot, none⟩ ['a'] (.bytes none) =
      (.error .notInBatch, ⟨false, exRoot, none⟩) ∧
    StartBatch ⟨true, exRoot, some exRoot⟩ =
      (.error .alreadyInBatch, ⟨true, exRoot, some exRoot⟩) ∧
    OpenBlock ⟨exRoot, none, ⟨false, exRoot, none⟩, some ⟨exRoot, 1, exRoot, none, false, false⟩, false⟩ 2 =
      (.error .alreadyOpen,
        ⟨exRoot, none, ⟨false, exRoot, none⟩, some ⟨exRoot, 1, exRoot, none, false, false⟩, false⟩) := by
  exact ⟨c9_protocol_misuse_rejected.1 noFetch _ _ _ rfl,
    c9_protocol_misuse_rejected.2.1 _ rfl,
    c9_protocol_misuse_rejected.2.2 _ _ 2 rfl⟩

/-! ## C10 -/

/-- C10: for a key absent from the persisted trie, the internal non-batch
lookup returns no node and no error, and `store.TreeGet` then dereferences
the nil node (`n.data`) instead of returning a result or an error: the walk
outcome is a runtime panic. -/
theorem c10_treeget_absent_key_panics :
    getNodeNB noFetch exStore.merkle ['a'] "" = .ok none ∧
    storeTreeGet noFetch exStore ['a'] = .panicked := by
  exact ⟨rfl, rfl⟩

/-! ## C8 -/

/-- A batch `put` never touches the lock flag or the persisted root field of
the tree state (it only replaces the batch root). -/
theorem put_state (F : Fetch) (s : MTState) (key : List Char) (v : PutVal) :
    (put F s key v).2.locked = s.locked ∧ (put F s key v).2.root = s.root := by
  unfold put
  split
  · exact ⟨rfl, rfl⟩
  · split
    · exact ⟨rfl, rfl⟩
    · split
      · exact ⟨rfl, rfl⟩
      · exact ⟨rfl, rfl⟩

/-- A whole sequence of batch puts never touches the lock flag or the
persisted root field. -/
theorem applyPuts_state (F : Fetch) (ops : List (List Char × PutVal)) :
    ∀ s : MTState, (applyPuts F ops s).locked = s.locked ∧
      (applyPuts F ops s).root = s.root := by
  induction ops with
  | nil => intro s; exact ⟨rfl, rfl⟩
  | cons op rest ih =>
    intro s
    have h1 := put_state F s op.1 op.2
    have h2 := ih ((put F s op.1 op.2).2)
    simp only [applyPuts, List.foldl_cons] at *
    exact ⟨h2.1.trans h1.1, h2.2.trans h1.2⟩

/-- C8: for every open batch (started by a successful `StartBatch` and
mutated by an arbitrary sequence of puts), `RevertBatch` succeeds, discards
the batch root, clears the lock, and leaves the persisted root node — hence
its hash — exactly as it was before the batch was opened. -/
theorem c8_revert_batch (s0 : MTState) (br : MNode) (s1 : MTState) (F : Fetch)
    (ops : List (List Char × PutVal))
    (h : StartBatch s0 = (.ok br, s1)) :
    RevertBatch (applyPuts F ops s1) = (.ok (), ⟨false, s0.root, none⟩) := by
  unfold StartBatch at h
  split at h
  · simp at h
  · split at h
    · simp at h
    · obtain ⟨-, h2⟩ := Prod.mk.injEq .. ▸ h
      have hA := applyPuts_state F ops s1
      have hl : (applyPuts F ops s1).locked = true := by
        rw [hA.1, ← h2]
      have hr : (applyPuts F ops s1).root = s0.root := by
        rw [hA.2, ← h2]
      unfold RevertBatch
      rw [hl, hr]
      rfl

/-- Witness for C8: a concrete batch with one put, reverted. -/
theorem c8_revert_batch_witness :
    RevertBatch (applyPuts noFetch [(['b'], .bytes (some [4]))]
        ((StartBatch ⟨false, exRoot, none⟩).2)) =
      (.ok (), ⟨false, exRoot, none⟩) :=
  c8_revert_batch ⟨false, exRoot, none⟩ _ _ noFetch _ rfl

/-! ## C7 -/

/-- A batch root holding a single unresolved link `"a"` whose target hash is
`exLeaf`'s. -/
def c7Root : MNode :=
  .mk (some [9]) (.cons "a" (.mk "a" .nil (some (mkHash (some [1]) []))) .nil)
    (mkHash (some [9]) [("a", some (mkHash (some [1]) []))]) [] false false

/-- A fetch oracle resolving exactly the child `"a"` of `c7Root` to
`exLeaf`. -/
def c7Fetch : Fetch := fun h _ => if h = c7Root.cnode then .found exLeaf else .missing

/-- C7 counterexample: (i) a batch-mode get of the absent key `"z"` in an
open batch returns the missing-link ERROR, not an absent result — while the
non-batch get of the same key returns absent; and (ii) the batch-mode walk
DOES mutate the batch's node graph: walking key `"a"` through an unresolved
link caches the fetched child into the batch root, which afterwards holds a
resolved target where it held none.  Both refute the claim as stated. -/
theorem c7_counterexample :
    (getNodeFromBatch noFetch ⟨true, exRoot, some exRoot⟩ ['z'] "").1 =
      .error .noSuchLink ∧
    getNodeNB noFetch ⟨true, exRoot, some exRoot⟩ ['z'] "" = .ok none ∧
    c7Root.links.find? "a" = some (.mk "a" .nil (some (mkHash (some [1]) []))) ∧
    ∃ mt', getNodeFromBatch c7Fetch ⟨true, exRoot, some c7Root⟩ ['a'] "" =
        (.ok (some (exLeaf.setFromIPFS true)), mt') ∧
      ∃ r' l tn, mt'.batchRoot = some r' ∧ r'.links.find? "a" = some l ∧
        l.target = .node tn := by
  exact ⟨rfl, rfl, rfl, _, rfl, _, _, _, rfl, rfl, rfl⟩

/-- C7 amended: (i) the non-batch get maps a missing link to an absent
result; (ii) the batch-mode walk of a key whose first edge is absent
surfaces the missing-link error to the caller instead of an absent result;
(iii) the batch-mode walk caches a fetched child into the batch root (a
mutation of the batch's node graph). -/
theorem c7_get_absent_amended :
    (∀ (F : Fetch) (s : MTState) (key : List Char) (ln : String),
      F s.root.cnode (nbSegs key ln) = .missing → getNodeNB F s key ln = .ok none) ∧
    (∀ (F : Fetch) (s : MTState) (c : Char) (rest : List Char) (r : MNode),
      s.locked = true → s.batchRoot = some r →
      r.links.find? (String.singleton c) = none →
      F r.cnode [String.singleton c] = .missing →
      (getNodeFromBatch F s (c :: rest) "").1 = .error .noSuchLink) ∧
    (∀ (F : Fetch) (s : MTState) (c : Char) (r : MNode) (l : MLink) (nk : MNode),
      s.locked = true → s.batchRoot = some r →
      r.links.find? (String.singleton c) = some l → l.target = .nil →
      F r.cnode [String.singleton c] = .found nk →
      getNodeFromBatch F s [c] "" =
        (.ok (some (nk.setFromIPFS true)),
          ⟨true, s.root, some (.mk r.data
            (r.links.set (String.singleton c)
              (.mk l.key (.node (nk.setFromIPFS true)) l.targetCid))
            r.cnode r.changedLinks r.changedData r.fromIPFS)⟩)) := by
  refine ⟨fun F s key ln h => ?_, fun F s c rest r h1 h2 h3 h4 => ?_,
    fun F s c r l nk h1 h2 h3 h4 h5 => ?_⟩
  · simp [getNodeNB, getObj, h]
  · simp [getNodeFromBatch, h1, h2, getKey, h3, getObj, h4]
  · cases s with
    | mk locked root batchRoot =>
      cases h1
      cases h2
      simp [getNodeFromBatch, getKey, h3, h4, getObj, h5]

/-- Witness for C7 amended, instantiated at the concrete fixtures. -/
theorem c7_get_absent_amended_witness :
    getNodeNB noFetch ⟨true, exRoot, some exRoot⟩ ['z'] "" = .ok none ∧
    (getNodeFromBatch noFetch ⟨true, exRoot, some exRoot⟩ ['z'] "").1 =
      .error .noSuchLink ∧
    getNodeFromBatch c7Fetch ⟨true, exRoot, some c7Root⟩ ['a'] "" =
      (.ok (some (exLeaf.setFromIPFS true)),
        ⟨true, exRoot, some (.mk c7Root.data
          (c7Root.links.set "a"
            (.mk "a" (.node (exLeaf.setFromIPFS true)) (some (mkHash (some [1]) []))))
          c7Root.cnode c7Root.changedLinks c7Root.changedData c7Root.fromIPFS)⟩) := by
  refine ⟨c7_get_absent_amended.1 noFetch _ _ _ rfl,
    c7_get_absent_amended.2.1 noFetch _ 'z' [] exRoot rfl rfl rfl rfl,
    c7_get_absent_amended.2.2 c7Fetch _ 'a' c7Root _ exLeaf rfl rfl rfl rfl rfl⟩

/-! ## C4 -/

/-- A submitted composite block-header node, dirty by data. -/
def c4Header : MNode := .mk (some [5]) .nil (mkHash (some [5]) []) [] true false

/-- A store block that has been submitted (header pending) and is open. -/
def c4sb : SB := ⟨exRoot, 5, exRoot, some c4Header, true, false⟩

/-- A store in batch, about to commit `c4sb`. -/
def c4Store : StoreState :=
  ⟨exRoot, some exRoot.cnode, ⟨true, exRoot, some exRoot⟩, some c4sb, false⟩

/-- C4 counterexample: when every node write succeeds but the root
pointer-file rewrite fails, `Commit` returns an error — a failure before
the pointer-file rewrite completes — yet the store's in-memory persisted
root (whose hash `GetRoot` reports and non-batch reads resolve against) has
already advanced to the block header, while the pointer file still holds
the old root: the persisted root observed by readers is NOT the same as
before the call. -/
theorem c4_counterexample :
    Commit (fun _ => true) true false c4Store c4sb =
      (.error .fileFail,
        ⟨c4Header, some exRoot.cnode, ⟨false, exRoot, none⟩, some c4sb, false⟩,
        c4sb) ∧
    c4Header.cnode ≠ exRoot.cnode := by
  constructor
  · simp [Commit, SB.IsOpen, c4sb, c4Store, batchCommit, collectChangedNodes,
      c4Header, commitGroups, dagBatchSize, CommitBatch, setRoot, MNode.changedLinks,
      MNode.changedData, MNode.cnode]
  · decide

/-- C4 amended: a `Commit` call that returns an error never rewrites the
root pointer file; and when the failure happens at any step before the
merkle `CommitBatch`/`setRoot` stage (guards, node writes, pinning — i.e.,
whenever the pointer-file write oracle was not the failing step), the whole
store state, in-memory roots included, is unchanged.  Only a failure of the
pointer-file rewrite itself leaves the in-memory root advanced while the
file retains the prior root. -/
theorem c4_commit_failure_amended (groupOk : Nat → Bool) (pinOk writeOk : Bool)
    (s : StoreState) (sb : SB) (e : PErr) (s' : StoreState) (sb' : SB)
    (h : Commit groupOk pinOk writeOk s sb = (.error e, s', sb')) :
    s'.rootFile = s.rootFile ∧ (writeOk = true → s' = s ∧ sb' = sb) := by
  revert h
  unfold Commit
  split
  · intro h; cases h; exact ⟨rfl, fun _ => ⟨rfl, rfl⟩⟩
  · split
    · intro h; cases h; exact ⟨rfl, fun _ => ⟨rfl, rfl⟩⟩
    · split
      · intro h; cases h; exact ⟨rfl, fun _ => ⟨rfl, rfl⟩⟩
      · split
        · intro h; cases h; exact ⟨rfl, fun _ => ⟨rfl, rfl⟩⟩
        · split
          · rename_i mt' heq
            intro h
            cases h
            refine ⟨rfl, fun _ => ⟨?_, rfl⟩⟩
            have hmt : mt' = s.merkle := by
              revert heq
              unfold CommitBatch
              split
              · intro heq; cases heq; rfl
              · split
                · intro heq; cases heq; rfl
                · intro heq; simp at heq
            rw [hmt]
          · cases writeOk
            · simp only [setRoot, Bool.false_eq_true, if_false]
              intro h
              cases h
              exact ⟨rfl, fun hww => nomatch hww⟩
            · simp only [setRoot, if_true]
              intro h
              simp at h

/-- Witness for C4 amended: a commit refused up front (block not open)
leaves everything unchanged. -/
theorem c4_commit_failure_amended_witness :
    (⟨exRoot, 5, exRoot, some c4Header, false, false⟩ : SB).opened = false ∧
    c4Store.rootFile = c4Store.rootFile ∧ (true = true → c4Store = c4Store ∧
      (⟨exRoot, 5, exRoot, some c4Header, false, false⟩ : SB) =
        ⟨exRoot, 5, exRoot, some c4Header, false, false⟩) :=
  ⟨rfl, c4_commit_failure_amended (fun _ => true) true true c4Store
    ⟨exRoot, 5, exRoot, some c4Header, false, false⟩ .notOpen c4Store
    ⟨exRoot, 5, exRoot, some c4Header, false, false⟩ rfl⟩

/-! ## C6 -/

/-- A put value whose link (if any) carries a resolved in-memory target, as
every link built by the repository's `Submit` path does. -/
def ResolvedPV : PutVal → Prop
  | .bytes _ => True
  | .lnk l => ∃ tn, l.target = .node tn

mutual
/-- The dirty marks of the first node are contained in those of the second
(same tree shape assumed): used to state that a repeated put marks nothing
newly dirty. -/
def dirtyLE : MNode → MNode → Bool
  | .mk _ ls1 _ cl1 cd1 _, .mk _ ls2 _ cl2 cd2 _ =>
    (!cd1 || cd2) && cl1.all (fun x => decide (x ∈ cl2)) && dirtyLEls ls1 ls2

/-- Pointwise `dirtyLE` over link maps of the same shape. -/
def dirtyLEls : MLinks → MLinks → Bool
  | .nil, .nil => true
  | .cons _ l1 r1, .cons _ l2 r2 => dirtyLElink l1 l2 && dirtyLEls r1 r2
  | _, _ => false

/-- Pointwise `dirtyLE` over links of the same resolvedness. -/
def dirtyLElink : MLink → MLink → Bool
  | .mk _ .nil _, .mk _ .nil _ => true
  | .mk _ (.node a) _, .mk _ (.node b) _ => dirtyLE a b
  | _, _ => false
end

mutual
/-- `dirtyLE` is reflexive. -/
theorem dirtyLE_refl : ∀ n : MNode, dirtyLE n n = true
  | .mk d ls c cl cd f => by
    cases cd <;> simp [dirtyLE, dirtyLEls_refl ls, List.all_eq_true]

/-- `dirtyLEls` is reflexive. -/
theorem dirtyLEls_refl : ∀ ls : MLinks, dirtyLEls ls ls = true
  | .nil => rfl
  | .cons k l rest => by
    simp [dirtyLEls, dirtyLElink_refl l, dirtyLEls_refl rest]

/-- `dirtyLElink` is reflexive. -/
theorem dirtyLElink_refl : ∀ l : MLink, dirtyLElink l l = true
  | .mk k .nil cid => rfl
  | .mk k (.node n) cid => by simp [dirtyLElink, dirtyLE_refl n]
end

/-- Looking up the key just set yields the new link. -/
theorem find?_set_self : ∀ (ls : MLinks) (k : String) (l : MLink),
    (ls.set k l).find? k = some l
  | .nil, k, l => by simp [MLinks.set, MLinks.find?]
  | .cons k0 l0 rest, k, l => by
    unfold MLinks.set
    split
    · rename_i h
      simp [MLinks.find?, h]
    · rename_i h
      simp [MLinks.find?, h, find?_set_self rest k l]

/-- Replacing a present entry by a `dirtyLElink`-smaller link keeps the map
`dirtyLEls`-below the original. -/
theorem dirtyLEls_set : ∀ (ls : MLinks) (k : String) (l l0 : MLink),
    ls.find? k = some l0 → dirtyLElink l l0 = true → dirtyLEls (ls.set k l) ls = true
  | .nil, _, _, _, h, _ => by simp [MLinks.find?] at h
  | .cons k0 l0' rest, k, l, l0, h, hle => by
    unfold MLinks.find? at h
    unfold MLinks.set
    split
    · rename_i hk
      rw [if_pos hk] at h
      cases h
      simp [dirtyLEls, hle, dirtyLEls_refl rest]
    · rename_i hk
      rw [if_neg hk] at h
      simp [dirtyLEls, dirtyLElink_refl l0', dirtyLEls_set rest k l l0 h hle]

/-- A successful `recomputeNode` changes only the hash. -/
theorem recompute_fields {m n1 : MNode} (h : recomputeNode m = .ok n1) :
    n1.data = m.data ∧ n1.links = m.links ∧ n1.changedLinks = m.changedLinks ∧
    n1.changedData = m.changedData ∧ n1.fromIPFS = m.fromIPFS := by
  unfold recomputeNode at h
  split at h
  · cases h
  · cases h; exact ⟨rfl, rfl, rfl, rfl, rfl⟩

/-- The nil-versus-non-nil mismatch test of `putKey` is false when both
sides are the same slice. -/
theorem self_mismatch (v : Option Bytes) :
    ((v.isNone && !v.isNone) || (!v.isNone && v.isNone)) = false := by
  cases v <;> rfl

/-- Re-running `putKey` on a node whose link at the key's first character
already holds the first run's resolved result: the walk descends into the
stored child, detects no hash change, and only writes the (dirty-no-more)
child back, so the node keeps its hash and gains no dirty mark. -/
theorem putKey_second_step (F : Fetch) (v : PutVal) (c : Char) (krest : List Char)
    (d : Option Bytes) (ls : MLinks) (X : Hash) (cl : List String) (cd f : Bool)
    (KEY : String) (CID : Option Hash) (m1 m2 : MNode)
    (hfind : ls.find? (String.singleton c) = some (.mk KEY (.node m1) CID))
    (hput2 : putKey F m1 krest v = .ok m2)
    (hcn : m2.cnode = m1.cnode)
    (hle : dirtyLE m2 m1 = true) :
    ∃ n2, putKey F (.mk d ls X cl cd f) (c :: krest) v = .ok n2 ∧
      n2.cnode = X ∧ dirtyLE n2 (.mk d ls X cl cd f) = true := by
  refine ⟨.mk d (ls.set (String.singleton c) (.mk KEY (.node m2) CID)) X cl cd f,
    ?_, rfl, ?_⟩
  · simp [putKey, ensureLink, hfind, fetchStep, hput2, hcn, finishPut]
  · have hlk : dirtyLElink (.mk KEY (.node m2) CID) (.mk KEY (.node m1) CID) = true := by
      simpa [dirtyLElink] using hle
    cases cd <;>
      simp [dirtyLE, List.all_eq_true, dirtyLEls_set ls _ _ _ hfind hlk]

/-- Lifting `putKey_second_step` through the `finishPut` that ended the
first run. -/
theorem putKey_finish_second (F : Fetch) (v : PutVal) (c : Char) (krest : List Char)
    (n : MNode) (LS : MLinks) (KEY : String) (CID : Option Hash) (m1 : MNode)
    (change : Bool) (n1 : MNode)
    (h1 : finishPut n (LS.set (String.singleton c) (.mk KEY (.node m1) CID))
            (String.singleton c) change = .ok n1)
    (hm : ∃ m2, putKey F m1 krest v = .ok m2 ∧ m2.cnode = m1.cnode ∧
      dirtyLE m2 m1 = true) :
    ∃ n2, putKey F n1 (c :: krest) v = .ok n2 ∧ n2.cnode = n1.cnode ∧
      dirtyLE n2 n1 = true := by
  obtain ⟨m2, hp, hc, hl⟩ := hm
  rcases n1 with ⟨d1, ls1, c1, cl1, cd1, f1⟩
  unfold finishPut at h1
  split at h1
  · obtain ⟨hd, hls, hcl, hcd, hf⟩ := recompute_fields h1
    simp at hd hls hcl hcd hf
    subst hd hls hcl hcd hf
    simpa using putKey_second_step F v c krest _ _ c1 _ _ _ KEY CID m1 m2
      (find?_set_self _ _ _) hp hc hl
  · cases h1
    simpa using putKey_second_step F v c krest _ _ _ _ _ _ KEY CID m1 m2
      (find?_set_self _ _ _) hp hc hl

/-- A chain freshly synthesized by `makeChild` is saturated: re-putting the
same value along it changes no hash and marks nothing newly dirty. -/
theorem makeChild_put_idempotent (F : Fetch) (v : PutVal) (hres : ResolvedPV v) :
    ∀ (krest : List Char) (m : MNode), makeChild krest v = .ok m →
      ∃ m2, putKey F m krest v = .ok m2 ∧ m2.cnode = m.cnode ∧ dirtyLE m2 m = true := by
  intro krest
  induction krest with
  | nil =>
    intro m h
    cases v with
    | bytes vb =>
      simp only [makeChild, makeNodeFromObj, MLinks.entries] at h
      simp only [List.map_nil, List.contains_nil, Bool.false_eq_true, if_false] at h
      injection h with hm
      refine ⟨.mk vb .nil (mkHash vb []) [] false false, ?_, ?_, ?_⟩
      · have hcond := self_mismatch vb
        rw [← hm]
        simp only [putKey, putKeyTerminal, MNode.data_mk, hcond, Bool.false_eq_true,
          if_false]
        simp
      · rw [← hm]; simp
      · rw [← hm]
        simp [dirtyLE, dirtyLEls]
    | lnk ln =>
      obtain ⟨tn, htn⟩ := hres
      simp only [makeChild] at h
      split at h
      · cases h
      · rename_i n0 hmk
        revert hmk
        unfold makeNodeFromObj
        split
        · intro hmk; cases hmk
        · intro hmk
          cases hmk
          injection h with hm
          refine ⟨m, ?_, rfl, ?_⟩
          · rw [← hm]
            simp [putKey, putKeyTerminal, MLinks.find?, addFlag, htn]
          · rw [← hm]
            exact dirtyLE_refl _
  | cons c krest ih =>
    intro m h
    simp only [makeChild] at h
    split at h
    · cases h
    · rename_i mc hmc
      split at h
      · cases h
      · rename_i n0 hmk
        revert hmk
        unfold makeNodeFromObj
        split
        · intro hmk; cases hmk
        · intro hmk
          cases hmk
          cases h
          obtain ⟨mc2, hp, hc, hl⟩ := ih mc hmc
          have hfind : (MLinks.cons (String.singleton c)
              (.mk (String.singleton c) (.node mc) none) .nil).find?
                (String.singleton c) =
              some (.mk (String.singleton c) (.node mc) none) := by
            simp [MLinks.find?]
          simpa [addFlag] using putKey_second_step F v c krest none _ _
            [String.singleton c] false false (String.singleton c) none mc mc2
            hfind hp hc hl

/-- The terminal byte-value put against a node already holding that value:
no mismatch, `changedData` is recomputed to false, nothing else moves. -/
theorem putTerminal_bytes_self (vb : Option Bytes) (ls : MLinks) (cn : Hash)
    (cl : List String) (cd f : Bool) :
    putKeyTerminal (.mk vb ls cn cl cd f) (.bytes vb) = .ok (.mk vb ls cn cl false f) := by
  unfold putKeyTerminal
  simp only [MNode.data_mk, self_mismatch, Bool.false_eq_true, if_false]
  simp

/-- The terminal link put against a node already holding that very link
(with a resolved target): the hash comparison ties, nothing moves. -/
theorem putTerminal_lnk_self (d : Option Bytes) (ls : MLinks) (cn : Hash)
    (cl : List String) (cd f : Bool) (ln : MLink) (tn : MNode)
    (htn : ln.target = .node tn) (hfind : ls.find? ln.key = some ln) :
    putKeyTerminal (.mk d ls cn cl cd f) (.lnk ln) = .ok (.mk d ls cn cl cd f) := by
  unfold putKeyTerminal
  simp only [MNode.links_mk, hfind, htn]
  rw [if_neg (show ¬(tn.cnode ≠ tn.cnode) by simp)]

/-- C6 (amended): for every key, every byte value, and every link whose
target node is resolved in memory, performing the same put a second time in
the open batch succeeds, yields a root with the same hash as after the
first call, and marks no node dirty that was not already marked after the
first call (the second call can only clear the terminal `dirty_data`
flag). -/
theorem c6_put_idempotent (F : Fetch) (key : List Char) (v : PutVal)
    (hres : ResolvedPV v) (n n1 : MNode) (h1 : putKey F n key v = .ok n1) :
    ∃ n2, putKey F n1 key v = .ok n2 ∧ n2.cnode = n1.cnode ∧
      dirtyLE n2 n1 = true := by
  induction key generalizing n n1 with
  | nil =>
    cases v with
    | bytes vb =>
      simp only [putKey, putKeyTerminal] at h1
      split at h1
      · rcases n1 with ⟨d1, ls1, c1, cl1, cd1, f1⟩
        obtain ⟨hd, hls, hcl, hcd, hf⟩ := recompute_fields h1
        simp only [MNode.data_mk, MNode.links_mk, MNode.changedLinks_mk,
          MNode.changedData_mk, MNode.fromIPFS_mk] at hd hls hcl hcd hf
        refine ⟨.mk d1 ls1 c1 cl1 false f1, ?_, rfl, ?_⟩
        · simp only [putKey]
          rw [hd]
          exact putTerminal_bytes_self vb ls1 c1 cl1 cd1 f1
        · simp [dirtyLE, dirtyLEls_refl, List.all_eq_true]
      · cases h1
        refine ⟨.mk vb n.links n.cnode n.changedLinks false n.fromIPFS, ?_, rfl, ?_⟩
        · simp only [putKey]
          exact putTerminal_bytes_self vb _ _ _ _ _
        · simp [dirtyLE, dirtyLEls_refl, List.all_eq_true]
    | lnk ln =>
      obtain ⟨tn, htn⟩ := hres
      simp only [putKey, putKeyTerminal] at h1
      split at h1
      · rcases n1 with ⟨d1, ls1, c1, cl1, cd1, f1⟩
        obtain ⟨hd, hls, hcl, hcd, hf⟩ := recompute_fields h1
        simp only [MNode.data_mk, MNode.links_mk, MNode.changedLinks_mk,
          MNode.changedData_mk, MNode.fromIPFS_mk] at hd hls hcl hcd hf
        refine ⟨.mk d1 ls1 c1 cl1 cd1 f1, ?_, rfl, dirtyLE_refl _⟩
        simp only [putKey]
        refine putTerminal_lnk_self d1 ls1 c1 cl1 cd1 f1 ln tn htn ?_
        rw [hls]
        exact find?_set_self _ _ _
      · rename_i ex hfind
        split at h1
        · cases h1
        · rename_i exN htex
          rw [htn] at h1
          simp only [] at h1
          split at h1
          · rcases n1 with ⟨d1, ls1, c1, cl1, cd1, f1⟩
            obtain ⟨hd, hls, hcl, hcd, hf⟩ := recompute_fields h1
            simp only [MNode.data_mk, MNode.links_mk, MNode.changedLinks_mk,
              MNode.changedData_mk, MNode.fromIPFS_mk] at hd hls hcl hcd hf
            refine ⟨.mk d1 ls1 c1 cl1 cd1 f1, ?_, rfl, dirtyLE_refl _⟩
            simp only [putKey]
            refine putTerminal_lnk_self d1 ls1 c1 cl1 cd1 f1 ln tn htn ?_
            rw [hls]
            exact find?_set_self _ _ _
          · rename_i hne
            cases h1
            refine ⟨n, ?_, rfl, dirtyLE_refl _⟩
            simp only [putKey, putKeyTerminal, hfind, htex, htn]
            rw [if_neg hne]
  | cons c krest ih =>
    simp only [putKey, ensureLink] at h1
    rcases hfind : n.links.find? (String.singleton c) with _ | l
    · rw [hfind] at h1
      rcases hfip : n.fromIPFS with _ | _
      · simp only [fetchStep, hfip, MLink.target_mk] at h1
        rcases hmc : makeChild krest v with e | nc <;> rw [hmc] at h1
        · simp at h1
        · simp only [MLink.key_mk, MLink.targetCid_mk] at h1
          exact putKey_finish_second F v c krest n _ _ _ _ _ _ h1
            (makeChild_put_idempotent F v hres krest nc hmc)
      · simp only [fetchStep, hfip, MLink.target_mk, getObj] at h1
        rcases hF : F n.cnode [String.singleton c] with nk | _ | _ <;> rw [hF] at h1
        · simp only [MLink.key_mk, MLink.targetCid_mk, MLink.target_mk] at h1
          rcases hsub : putKey F (nk.setFromIPFS true) krest v with e | nk1 <;>
            rw [hsub] at h1
          · simp at h1
          · exact putKey_finish_second F v c krest n _ _ _ _ _ _ h1 (ih _ _ hsub)
        · simp only [MLink.target_mk] at h1
          rcases hmc : makeChild krest v with e | nc <;> rw [hmc] at h1
          · simp at h1
          · simp only [MLink.key_mk, MLink.targetCid_mk] at h1
            exact putKey_finish_second F v c krest n _ _ _ _ _ _ h1
              (makeChild_put_idempotent F v hres krest nc hmc)
        · simp at h1
    · rw [hfind] at h1
      rcases htl : l.target with _ | tn
      · rcases hfip : n.fromIPFS with _ | _
        · simp only [fetchStep, htl, hfip] at h1
          rcases hmc : makeChild krest v with e | nc <;> rw [hmc] at h1
          · simp at h1
          · exact putKey_finish_second F v c krest n _ _ _ _ _ _ h1
              (makeChild_put_idempotent F v hres krest nc hmc)
        · simp only [fetchStep, htl, hfip, getObj] at h1
          rcases hF : F n.cnode [String.singleton c] with nk | _ | _ <;> rw [hF] at h1
          · simp only [MLink.target_mk] at h1
            rcases hsub : putKey F (nk.setFromIPFS true) krest v with e | nk1 <;>
              rw [hsub] at h1
            · simp at h1
            · exact putKey_finish_second F v c krest n _ _ _ _ _ _ h1 (ih _ _ hsub)
          · simp only [htl] at h1
            rcases hmc : makeChild krest v with e | nc <;> rw [hmc] at h1
            · simp at h1
            · simp only [] at h1
              exact putKey_finish_second F v c krest n _ _ _ _ _ _ h1
                (makeChild_put_idempotent F v hres krest nc hmc)
          · simp at h1
      · simp only [fetchStep, htl] at h1
        rcases hsub : putKey F tn krest v with e | nk1 <;> rw [hsub] at h1
        · simp at h1
        · exact putKey_finish_second F v c krest n _ _ _ _ _ _ h1 (ih _ _ hsub)

/-- An unresolved link: only a target hash, no loaded node. -/
def c6Link : MLink := .mk "x" .nil (some (mkHash (some [7]) []))

/-- C6 counterexample: putting a link that carries only a fixed target hash
(no resolved node) twice at the same key does not leave the root unchanged
the second time: the first put succeeds, the second dereferences the stored
link's nil `targetNode` and panics, so the claim fails for hash-only
links. -/
theorem c6_counterexample :
    ∃ r1, putKey noFetch exRoot [] (.lnk c6Link) = .ok r1 ∧
      putKey noFetch r1 [] (.lnk c6Link) = .error .panicNil := by
  exact ⟨_, rfl, rfl⟩

/-- The root after a first concrete put of value `[3]` at key `"b"`. -/
def c6FirstResult : MNode :=
  (putKey noFetch exRoot ['b'] (.bytes (some [3]))).toOption.getD exRoot

/-- Witness for C6 at a concrete first put. -/
theorem c6_put_idempotent_witness :
    putKey noFetch exRoot ['b'] (.bytes (some [3])) = .ok c6FirstResult ∧
    ∃ n2, putKey noFetch c6FirstResult ['b'] (.bytes (some [3])) = .ok n2 ∧
      n2.cnode = c6FirstResult.cnode ∧ dirtyLE n2 c6FirstResult = true :=
  ⟨rfl, c6_put_idempotent noFetch ['b'] (.bytes (some [3])) trivial exRoot
    c6FirstResult rfl⟩

/-! ## C2 -/

/-- A node dirty by data, with a distinct CID (abbreviated to `[1]`). -/
def c2Child : MNode := .mk (some [1]) .nil [1] [] true false

/-- A batch root whose link `"a"` to `c2Child` is marked dirty (CID
abbreviated to `[2]`). -/
def c2Root : MNode :=
  .mk (some [9]) (.cons "a" (.mk "a" (.node c2Child) none) .nil) [2] ["a"] false false

/-- C2 counterexample: on a two-node dirty trie, `collectChangedNodes`
returns the PARENT at position 1 and its dirty child at position 2 — the
parent is placed at an earlier position than its dirty child, refuting the
claimed children-before-parents ordering of the collected sequence (the
commit loop compensates by writing the sequence from the end backwards). -/
theorem c2_counterexample :
    collectChangedNodes c2Root [none] [] =
      .ok ([none, some c2Root, some c2Child],
        [(c2Child.cnode, 2), (c2Root.cnode, 1)]) ∧
    "a" ∈ c2Root.changedLinks ∧
    c2Root.links.find? "a" = some (.mk "a" (.node c2Child) none) := by
  refine ⟨?_, by decide, rfl⟩
  simp [collectChangedNodes, collectLinks, c2Root, c2Child, idxGet, MLinks.find?]

mutual
/-- The full reachable closure of a node (itself and every node reachable
through resolved links), used to state that the trie is sharing-free. -/
def closureN : MNode → List MNode
  | n@(.mk _ ls _ _ _ _) => n :: closureL ls

/-- Closure of every link target of a link map. -/
def closureL : MLinks → List MNode
  | .nil => []
  | .cons _ (.mk _ t _) rest => closureT t ++ closureL rest

def closureT : MTarget → List MNode
  | .nil => []
  | .node n => closureN n
end

mutual
/-- The preorder list of dirty nodes that `collectChangedNodes` walks:
a node dirty by links comes first, followed by the dirty subtrees of its
changed links in order; a node dirty only by data stands alone. -/
def dirtyList : MNode → List MNode
  | n@(.mk _ ls _ cl cd _) =>
    match cl with
    | [] => if cd then [n] else []
    | k :: ks => n :: dirtyKids ls (k :: ks)
termination_by n => 2 * nsize n
decreasing_by
  simp_all [nsize]
  omega

/-- The dirty subtree hanging off one changed-link name. -/
def dirtySeg (ls : MLinks) (k : String) : List MNode :=
  match hf : ls.find? k with
  | some l =>
    match ht : l.target with
    | .node tn => dirtyList tn
    | .nil => []
  | none => []
termination_by 2 * lsize ls
decreasing_by
  have h1 := find?_target_size hf
  rw [ht] at h1
  simp [tsize] at h1
  omega

/-- The concatenation of the dirty subtrees of the remaining changed-link
names. -/
def dirtyKids (ls : MLinks) : List String → List MNode
  | [] => []
  | k :: ks => dirtySeg ls k ++ dirtyKids ls ks
termination_by ks => 2 * lsize ls + 2 * ks.length + 1
decreasing_by
  · simp [List.length_cons]
    omega
  · simp [List.length_cons]
end

mutual
/-- Well-formedness of the transient dirty-link flags: `changedLinks` is a
set (Go map keys are unique) throughout the node graph. -/
def wfcl : MNode → Bool
  | .mk _ ls _ cl _ _ => decide cl.Nodup && wfclL ls

def wfclL : MLinks → Bool
  | .nil => true
  | .cons _ (.mk _ t _) rest => wfclT t && wfclL rest

def wfclT : MTarget → Bool
  | .nil => true
  | .node n => wfcl n
end

/-- `c` is a dirty child of `p`: the target of a link of `p` whose name is
flagged in `p.changedLinks`. -/
def dirtyEdge (p c : MNode) : Prop :=
  ∃ k l, k ∈ p.changedLinks ∧ p.links.find? k = some l ∧ l.target = .node c

/-- A node is in its own closure. -/
theorem self_mem_closureN : ∀ n : MNode, n ∈ closureN n
  | .mk d ls c cl cd f => by simp [closureN]

mutual
/-- Closure members are no larger than the node. -/
theorem closure_size_N : ∀ (n : MNode), ∀ x ∈ closureN n, nsize x ≤ nsize n
  | .mk d ls c cl cd f => by
    intro x hx
    simp [closureN] at hx
    rcases hx with rfl | hx
    · exact le_refl _
    · have h := closure_size_L ls x hx
      simp [nsize]
      omega

/-- Closure members of a link map are smaller than the map. -/
theorem closure_size_L : ∀ (ls : MLinks), ∀ x ∈ closureL ls, nsize x ≤ lsize ls
  | .nil => by intro x hx; simp [closureL] at hx
  | .cons k (.mk k2 t cid) rest => by
    intro x hx
    simp [closureL] at hx
    rcases hx with hx | hx
    · have h := closure_size_T t x hx
      simp [lsize]
      omega
    · have h := closure_size_L rest x hx
      simp [lsize]
      omega

/-- Closure members of a target are no larger than the target. -/
theorem closure_size_T : ∀ (t : MTarget), ∀ x ∈ closureT t, nsize x ≤ tsize t
  | .nil => by intro x hx; simp [closureT] at hx
  | .node n => by
    intro x hx
    simp [closureT] at hx
    have h := closure_size_N n x hx
    simp [tsize]
    omega
end

mutual
/-- The closure is transitively closed. -/
theorem closure_trans_N : ∀ (n : MNode), ∀ x ∈ closureN n, ∀ y ∈ closureN x, y ∈ closureN n
  | .mk d ls c cl cd f => by
    intro x hx y hy
    simp [closureN] at hx ⊢
    rcases hx with rfl | hx
    · simpa [closureN] using hy
    · right; exact closure_trans_L ls x hx y hy

/-- Transitivity through a link map's closure. -/
theorem closure_trans_L : ∀ (ls : MLinks), ∀ x ∈ closureL ls, ∀ y ∈ closureN x, y ∈ closureL ls
  | .nil => by intro x hx; simp [closureL] at hx
  | .cons k (.mk k2 t cid) rest => by
    intro x hx y hy
    simp [closureL] at hx ⊢
    rcases hx with hx | hx
    · exact Or.inl (closure_trans_T t x hx y hy)
    · exact Or.inr (closure_trans_L rest x hx y hy)

/-- Transitivity through a target's closure. -/
theorem closure_trans_T : ∀ (t : MTarget), ∀ x ∈ closureT t, ∀ y ∈ closureN x, y ∈ closureT t
  | .nil => by intro x hx; simp [closureT] at hx
  | .node n => by
    intro x hx y hy
    simp [closureT] at hx ⊢
    exact closure_trans_N n x hx y hy
end

/-- A found link's target closure is a contiguous sublist of the map's
closure. -/
theorem find?_closure_sublist : ∀ (ls : MLinks) (k : String) (l : MLink),
    ls.find? k = some l → (closureT l.target).Sublist (closureL ls)
  | .nil, _, _, h => by simp [MLinks.find?] at h
  | .cons k0 (.mk k2 t cid) rest, k, l, h => by
    unfold MLinks.find? at h
    split at h
    · cases h
      simp only [closureL, MLink.target_mk]
      exact List.sublist_append_left _ _
    · have hs := find?_closure_sublist rest k l h
      simp only [closureL]
      exact hs.trans (List.sublist_append_right _ _)

/-- Membership form of `find?_closure_sublist`. -/
theorem find?_closure_subset {ls : MLinks} {k : String} {l : MLink}
    (h : ls.find? k = some l) : ∀ x ∈ closureT l.target, x ∈ closureL ls :=
  fun _ hx => (find?_closure_sublist ls k l h).subset hx

/-- The closures of the targets of two links found under different keys are
hash-disjoint when the whole map closure has pairwise-distinct hashes. -/
theorem find?_closure_disj : ∀ (ls : MLinks) (k₁ k₂ : String) (l₁ l₂ : MLink),
    k₁ ≠ k₂ → ls.find? k₁ = some l₁ → ls.find? k₂ = some l₂ →
    ((closureL ls).map MNode.cnode).Nodup →
    ∀ h, h ∈ (closureT l₁.target).map MNode.cnode →
      h ∈ (closureT l₂.target).map MNode.cnode → False
  | .nil, _, _, _, _, _, h1, _, _, _, _, _ => by simp [MLinks.find?] at h1
  | .cons k0 (.mk k2 t cid) rest, k₁, k₂, l₁, l₂, hne, h1, h2, hnd, h, hm1, hm2 => by
    unfold MLinks.find? at h1 h2
    have hnd' : ((closureT t).map MNode.cnode ++
        (closureL rest).map MNode.cnode).Nodup := by
      simpa [closureL] using hnd
    by_cases e1 : k0 = k₁
    · rw [if_pos e1] at h1
      cases h1
      rw [if_neg (fun he => hne (e1 ▸ he))] at h2
      have hm2' : h ∈ (closureL rest).map MNode.cnode :=
        ((find?_closure_sublist rest k₂ l₂ h2).map MNode.cnode).subset hm2
      exact (List.disjoint_of_nodup_append hnd') (by simpa using hm1) hm2'
    · rw [if_neg e1] at h1
      by_cases e2 : k0 = k₂
      · rw [if_pos e2] at h2
        cases h2
        have hm1' : h ∈ (closureL rest).map MNode.cnode :=
          ((find?_closure_sublist rest k₁ l₁ h1).map MNode.cnode).subset hm1
        exact (List.disjoint_of_nodup_append hnd') (by simpa using hm2) hm1'
      · rw [if_neg e2] at h2
        exact find?_closure_disj rest k₁ k₂ l₁ l₂ hne h1 h2
          (hnd'.of_append_right) h hm1 hm2

/-- The flag well-formedness of a found link's target. -/
theorem wfclL_find : ∀ (ls : MLinks) (k : String) (l : MLink),
    wfclL ls = true → ls.find? k = some l → wfclT l.target = true
  | .nil, _, _, _, h => by simp [MLinks.find?] at h
  | .cons k0 (.mk k2 t cid) rest, k, l, hw, h => by
    unfold MLinks.find? at h
    simp only [wfclL, Bool.and_eq_true] at hw
    split at h
    · cases h; exact hw.1
    · exact wfclL_find rest k l hw.2 h

/-- Components of node-level flag well-formedness. -/
theorem wfcl_parts {d : Option Bytes} {ls : MLinks} {c : Hash} {cl : List String}
    {cd f : Bool} (h : wfcl (.mk d ls c cl cd f) = true) :
    cl.Nodup ∧ wfclL ls = true := by
  simpa [wfcl] using h

/-- A dirty child is strictly smaller than its parent. -/
theorem dirtyEdge_size : ∀ {p c : MNode}, dirtyEdge p c → nsize c < nsize p := by
  intro p c h
  obtain ⟨k, l, hk, hf, ht⟩ := h
  rcases p with ⟨d, ls, cn, cl, cd, f⟩
  simp only [MNode.links_mk] at hf
  have h2 := find?_target_size hf
  rw [ht] at h2
  simp [tsize] at h2
  simp [nsize]
  omega

/-- A dirty child is in its parent's closure. -/
theorem dirtyEdge_mem_closure : ∀ {p c : MNode}, dirtyEdge p c → c ∈ closureN p := by
  intro p c h
  obtain ⟨k, l, hk, hf, ht⟩ := h
  rcases p with ⟨d, ls, cn, cl, cd, f⟩
  simp only [MNode.links_mk] at hf
  have hc : c ∈ closureT l.target := by
    rw [ht]
    simp [closureT]
    exact self_mem_closureN c
  have := find?_closure_subset hf c hc
  simp [closureN]
  right
  exact this

/-- Elements of a dirty segment come from the dirty list of the found
link's resolved target. -/
theorem mem_dirtySeg {ls : MLinks} {k : String} {x : MNode}
    (hx : x ∈ dirtySeg ls k) :
    ∃ l tn, ls.find? k = some l ∧ l.target = .node tn ∧ x ∈ dirtyList tn := by
  unfold dirtySeg at hx
  split at hx
  · rename_i l hf
    split at hx
    · rename_i tn ht
      exact ⟨l, tn, hf, ht, hx⟩
    · simp at hx
  · simp at hx

/-- Elements of the dirty kids come from the segment of one of the keys. -/
theorem mem_dirtyKids {ls : MLinks} {x : MNode} :
    ∀ {ks : List String}, x ∈ dirtyKids ls ks → ∃ k ∈ ks, x ∈ dirtySeg ls k := by
  intro ks
  induction ks with
  | nil => intro hx; simp [dirtyKids] at hx
  | cons k ks ih =>
    intro hx
    simp only [dirtyKids, List.mem_append] at hx
    rcases hx with hx | hx
    · exact ⟨k, by simp, hx⟩
    · obtain ⟨k', hk', hx'⟩ := ih hx
      exact ⟨k', by simp [hk'], hx'⟩

/-- The dirty list is contained in the closure. -/
theorem dirtyList_sub_closure : ∀ (n : MNode), ∀ x ∈ dirtyList n, x ∈ closureN n := by
  intro n0
  refine dirtyList.induct
    (fun n => ∀ x ∈ dirtyList n, x ∈ closureN n)
    (fun ls ks => ∀ x ∈ dirtyKids ls ks, x ∈ closureL ls)
    (fun ls k => ∀ x ∈ dirtySeg ls k, x ∈ closureL ls)
    ?_ ?_ ?_ ?_ ?_ ?_ ?_ ?_ n0
  · intro d ls c f _ x hx
    simp [dirtyList] at hx
    subst hx
    exact self_mem_closureN _
  · intro d ls c cd f hcd _ x hx
    simp [dirtyList, hcd] at hx
  · intro d ls c cd f k ks _ ih x hx
    simp only [dirtyList] at hx
    rcases List.mem_cons.mp hx with rfl | hx
    · exact self_mem_closureN _
    · simp [closureN]
      right
      exact ih x hx
  · intro ls x hx
    simp [dirtyKids] at hx
  · intro ls k ks ihseg ihrest x hx
    simp only [dirtyKids, List.mem_append] at hx
    rcases hx with hx | hx
    · exact ihseg x hx
    · exact ihrest x hx
  · intro ls k l hf tn ht ih x hx
    unfold dirtySeg at hx
    rw [hf] at hx
    simp only [] at hx
    rw [ht] at hx
    simp only [] at hx
    have hcx : x ∈ closureT l.target := by
      rw [ht]
      simpa [closureT] using ih x hx
    exact find?_closure_subset hf x hcx
  · intro ls k l hf ht x hx
    unfold dirtySeg at hx
    rw [hf] at hx
    simp only [] at hx
    rw [ht] at hx
    simp at hx
  · intro ls k hf x hx
    unfold dirtySeg at hx
    rw [hf] at hx
    simp at hx

/-- Dirty kids are contained in the map closure. -/
theorem dirtyKids_sub_closure {ls : MLinks} {ks : List String} :
    ∀ x ∈ dirtyKids ls ks, x ∈ closureL ls := by
  intro x hx
  obtain ⟨k, _, hseg⟩ := mem_dirtyKids hx
  obtain ⟨l, tn, hf, ht, hdl⟩ := mem_dirtySeg hseg
  have hcx : x ∈ closureT l.target := by
    rw [ht]
    simpa [closureT] using dirtyList_sub_closure tn x hdl
  exact find?_closure_subset hf x hcx

/-- On a sharing-free trie (pairwise-distinct closure hashes) with
well-formed dirty flags, the dirty preorder list mentions each hash at most
once and never places a node after one of its dirty children (the parent
always comes first). -/
theorem dirtyList_nodup_pairwise :
    ∀ n : MNode, ((closureN n).map MNode.cnode).Nodup → wfcl n = true →
      ((dirtyList n).map MNode.cnode).Nodup ∧
      (dirtyList n).Pairwise (fun a b => ¬ dirtyEdge b a) := by
  intro n0
  refine dirtyList.induct
    (fun n => ((closureN n).map MNode.cnode).Nodup → wfcl n = true →
      ((dirtyList n).map MNode.cnode).Nodup ∧
      (dirtyList n).Pairwise (fun a b => ¬ dirtyEdge b a))
    (fun ls ks => ((closureL ls).map MNode.cnode).Nodup → wfclL ls = true →
      ks.Nodup →
      ((dirtyKids ls ks).map MNode.cnode).Nodup ∧
      (dirtyKids ls ks).Pairwise (fun a b => ¬ dirtyEdge b a))
    (fun ls k => ((closureL ls).map MNode.cnode).Nodup → wfclL ls = true →
      ((dirtySeg ls k).map MNode.cnode).Nodup ∧
      (dirtySeg ls k).Pairwise (fun a b => ¬ dirtyEdge b a))
    ?_ ?_ ?_ ?_ ?_ ?_ ?_ ?_ n0
  · intro d ls c f _ _ _
    simp [dirtyList]
  · intro d ls c cd f hcd _ _ _
    simp [dirtyList, hcd]
  · intro d ls c cd f k ks _ ih hnd hwf
    obtain ⟨hclnd, hwfL⟩ := wfcl_parts hwf
    simp only [closureN, List.map_cons, List.nodup_cons, MNode.cnode_mk] at hnd
    obtain ⟨hc_not, hndL⟩ := hnd
    obtain ⟨KND, KPW⟩ := ih hndL hwfL hclnd
    simp only [dirtyList]
    constructor
    · simp only [List.map_cons, List.nodup_cons, MNode.cnode_mk]
      refine ⟨?_, KND⟩
      intro hmem
      obtain ⟨x, hxk, hxc⟩ := List.mem_map.mp hmem
      exact hc_not (List.mem_map.mpr ⟨x, dirtyKids_sub_closure x hxk, hxc⟩)
    · refine List.pairwise_cons.mpr ⟨?_, KPW⟩
      intro b hb hedge
      have h1 : nsize (MNode.mk d ls c (k :: ks) cd f) < nsize b := dirtyEdge_size hedge
      have h2 : nsize b ≤ lsize ls := closure_size_L ls b (dirtyKids_sub_closure b hb)
      simp [nsize] at h1
      omega
  · intro ls _ _ _
    simp [dirtyKids]
  · intro ls k ks ihseg ihrest hnd hwf hksnd
    obtain ⟨hk_not, hksnd'⟩ := List.nodup_cons.mp hksnd
    obtain ⟨SND, SPW⟩ := ihseg hnd hwf
    obtain ⟨KND, KPW⟩ := ihrest hnd hwf hksnd'
    simp only [dirtyKids]
    constructor
    · rw [List.map_append]
      refine List.Nodup.append SND KND ?_
      intro h hh1 hh2
      obtain ⟨x, hxseg, hxc⟩ := List.mem_map.mp hh1
      obtain ⟨y, hykids, hyc⟩ := List.mem_map.mp hh2
      obtain ⟨l, tn, hf, ht, hxdl⟩ := mem_dirtySeg hxseg
      obtain ⟨k', hk'mem, hyseg⟩ := mem_dirtyKids hykids
      obtain ⟨l', tn', hf', ht', hydl⟩ := mem_dirtySeg hyseg
      have hkne : k ≠ k' := fun he => hk_not (he ▸ hk'mem)
      have hx1 : h ∈ (closureT l.target).map MNode.cnode := by
        refine List.mem_map.mpr ⟨x, ?_, hxc⟩
        rw [ht]
        simpa [closureT] using dirtyList_sub_closure tn x hxdl
      have hy1 : h ∈ (closureT l'.target).map MNode.cnode := by
        refine List.mem_map.mpr ⟨y, ?_, hyc⟩
        rw [ht']
        simpa [closureT] using dirtyList_sub_closure tn' y hydl
      exact find?_closure_disj ls k k' l l' hkne hf hf' hnd h hx1 hy1
    · rw [List.pairwise_append]
      refine ⟨SPW, KPW, ?_⟩
      intro a ha b hb hedge
      obtain ⟨l, tn, hf, ht, hadl⟩ := mem_dirtySeg ha
      obtain ⟨k', hk'mem, hbseg⟩ := mem_dirtyKids hb
      obtain ⟨l', tn', hf', ht', hbdl⟩ := mem_dirtySeg hbseg
      have hkne : k ≠ k' := fun he => hk_not (he ▸ hk'mem)
      have ha1 : a.cnode ∈ (closureT l.target).map MNode.cnode := by
        refine List.mem_map.mpr ⟨a, ?_, rfl⟩
        rw [ht]
        simpa [closureT] using dirtyList_sub_closure tn a hadl
      have hb2 : b ∈ closureN tn' := dirtyList_sub_closure tn' b hbdl
      have ha2 : a ∈ closureN tn' :=
        closure_trans_N tn' b hb2 a (dirtyEdge_mem_closure hedge)
      have ha3 : a.cnode ∈ (closureT l'.target).map MNode.cnode := by
        refine List.mem_map.mpr ⟨a, ?_, rfl⟩
        rw [ht']
        simpa [closureT] using ha2
      exact find?_closure_disj ls k k' l l' hkne hf hf' hnd a.cnode ha1 ha3
  · intro ls k l hf tn ht ih hnd hwf
    have hsub : (closureN tn).Sublist (closureL ls) := by
      have hs := find?_closure_sublist ls k l hf
      rw [ht] at hs
      simpa [closureT] using hs
    have hnd' : ((closureN tn).map MNode.cnode).Nodup :=
      (hsub.map MNode.cnode).nodup hnd
    have hwf' : wfcl tn = true := by
      have hw := wfclL_find ls k l hwf hf
      rw [ht] at hw
      simpa [wfclT] using hw
    have hres := ih hnd' hwf'
    unfold dirtySeg
    rw [hf]
    simp only []
    rw [ht]
    simpa using hres
  · intro ls k l hf ht _ _
    unfold dirtySeg
    rw [hf]
    simp only []
    rw [ht]
    simp
  · intro ls k hf _ _
    unfold dirtySeg
    rw [hf]
    simp

/-- The closure of a node is the node followed by the closure of its link
map, stated over an undestructured node. -/
theorem closureN_eq : ∀ n : MNode, closureN n = n :: closureL n.links
  | .mk d ls c cl cd f => by simp [closureN]

/-- Flag well-formedness split, stated over an undestructured node. -/
theorem wfcl_split : ∀ n : MNode, wfcl n = true →
    n.changedLinks.Nodup ∧ wfclL n.links = true
  | .mk d ls c cl cd f, h => by simpa using wfcl_parts h

/-- The dirty list of a node without dirty links. -/
theorem dirtyList_nil_eq (n : MNode) (hcl : n.changedLinks = []) :
    dirtyList n = if n.changedData then [n] else [] := by
  rcases n with ⟨d, ls, c, cl, cd, f⟩
  simp only [MNode.changedLinks_mk] at hcl
  subst hcl
  cases cd <;> simp [dirtyList]

/-- The dirty list of a node with dirty links. -/
theorem dirtyList_cons_eq (n : MNode) (k : String) (ks : List String)
    (hcl : n.changedLinks = k :: ks) :
    dirtyList n = n :: dirtyKids n.links (k :: ks) := by
  rcases n with ⟨d, ls, c, cl, cd, f⟩
  simp only [MNode.changedLinks_mk] at hcl
  subst hcl
  simp [dirtyList]

/-- The dirty-kids step equation. -/
theorem dirtyKids_cons (ls : MLinks) (k : String) (ks : List String) :
    dirtyKids ls (k :: ks) = dirtySeg ls k ++ dirtyKids ls ks := by
  simp [dirtyKids]

/-- A successful collector run on a sharing-free trie appends exactly the
dirty preorder list to the accumulator, and the returned index registers
exactly the previously-indexed hashes plus the dirty ones (always with
positive positions). -/
theorem collect_eq_dirtyList :
    ∀ n : MNode, ∀ (nodes : List (Option MNode)) (idx : Idx) (resN : List (Option MNode))
      (resI : Idx), collectChangedNodes n nodes idx = .ok (resN, resI) →
      ((closureN n).map MNode.cnode).Nodup → wfcl n = true →
      (∀ h ∈ (closureN n).map MNode.cnode, idxGet idx h = 0) →
      (∀ p ∈ idx, 1 ≤ p.2) → 1 ≤ nodes.length →
      resN = nodes ++ (dirtyList n).map some ∧
      (∀ h, idxGet resI h ≠ 0 ↔
        (idxGet idx h ≠ 0 ∨ h ∈ (dirtyList n).map MNode.cnode)) ∧
      (∀ p ∈ resI, 1 ≤ p.2) := by
  intro n0 nodes0 idx0
  refine collectChangedNodes.induct
    (fun n nodes idx => ∀ resN resI,
      collectChangedNodes n nodes idx = .ok (resN, resI) →
      ((closureN n).map MNode.cnode).Nodup → wfcl n = true →
      (∀ h ∈ (closureN n).map MNode.cnode, idxGet idx h = 0) →
      (∀ p ∈ idx, 1 ≤ p.2) → 1 ≤ nodes.length →
      resN = nodes ++ (dirtyList n).map some ∧
      (∀ h, idxGet resI h ≠ 0 ↔
        (idxGet idx h ≠ 0 ∨ h ∈ (dirtyList n).map MNode.cnode)) ∧
      (∀ p ∈ resI, 1 ≤ p.2))
    (fun links ks nodes idx => ∀ resN resI,
      collectLinks links ks nodes idx = .ok (resN, resI) →
      ((closureL links).map MNode.cnode).Nodup → wfclL links = true → ks.Nodup →
      (∀ k ∈ ks, ∀ l, links.find? k = some l →
        ∀ h ∈ (closureT l.target).map MNode.cnode, idxGet idx h = 0) →
      (∀ p ∈ idx, 1 ≤ p.2) → 1 ≤ nodes.length →
      resN = nodes ++ (dirtyKids links ks).map some ∧
      (∀ h, idxGet resI h ≠ 0 ↔
        (idxGet idx h ≠ 0 ∨ h ∈ (dirtyKids links ks).map MNode.cnode)) ∧
      (∀ p ∈ resI, 1 ≤ p.2))
    ?_ ?_ ?_ ?_ ?_ ?_ ?_ ?_ ?_ n0 nodes0 idx0
  · -- changedLinks = [], changedData = true
    intro n nodes idx hcl hcd resN resI hrun hnd hwf hunidx hvals hlen
    unfold collectChangedNodes at hrun
    rw [hcl] at hrun
    simp only [] at hrun
    rw [if_pos hcd] at hrun
    rw [Except.ok.injEq, Prod.mk.injEq] at hrun
    obtain ⟨h1, h2⟩ := hrun
    subst h1 h2
    rw [dirtyList_nil_eq n hcl, if_pos hcd]
    refine ⟨by simp, ?_, ?_⟩
    · intro h
      simp only [idxGet, List.map_cons, List.map_nil, List.mem_singleton]
      by_cases hch : n.cnode = h
      · rw [if_pos hch]
        constructor
        · intro _; exact Or.inr hch.symm
        · intro _; omega
      · rw [if_neg hch]
        constructor
        · exact fun hx => Or.inl hx
        · rintro (hx | hx)
          · exact hx
          · exact absurd hx.symm hch
    · intro p hp
      rcases List.mem_cons.mp hp with rfl | hp
      · exact hlen
      · exact hvals p hp
  · -- changedLinks = [], changedData = false
    intro n nodes idx hcl hcd resN resI hrun hnd hwf hunidx hvals hlen
    unfold collectChangedNodes at hrun
    rw [hcl] at hrun
    simp only [] at hrun
    rw [if_neg hcd] at hrun
    rw [Except.ok.injEq, Prod.mk.injEq] at hrun
    obtain ⟨h1, h2⟩ := hrun
    subst h1 h2
    rw [dirtyList_nil_eq n hcl, if_neg hcd]
    refine ⟨by simp, ?_, hvals⟩
    intro h
    simp
  · -- changedLinks = k :: ks: the node is appended and indexed up front
    intro n nodes idx k ks hcl ih resN resI hrun hnd hwf hunidx hvals hlen
    unfold collectChangedNodes at hrun
    rw [hcl] at hrun
    simp only [] at hrun
    rw [closureN_eq n] at hnd hunidx
    simp only [List.map_cons, List.nodup_cons] at hnd
    obtain ⟨hc_not, hndL⟩ := hnd
    obtain ⟨hclnd0, hwfL⟩ := wfcl_split n hwf
    rw [hcl] at hclnd0
    have hunidx' : ∀ k' ∈ k :: ks, ∀ l, n.links.find? k' = some l →
        ∀ h ∈ (closureT l.target).map MNode.cnode,
          idxGet ((n.cnode, nodes.length) :: idx) h = 0 := by
      intro k' hk' l hf h hh
      have hhL : h ∈ (closureL n.links).map MNode.cnode :=
        ((find?_closure_sublist n.links k' l hf).map MNode.cnode).subset hh
      have hch : n.cnode ≠ h := fun he => hc_not (he ▸ hhL)
      simp only [idxGet]
      rw [if_neg hch]
      refine hunidx h ?_
      simp only [List.map_cons, List.mem_cons]
      exact Or.inr hhL
    have hvals' : ∀ p ∈ (n.cnode, nodes.length) :: idx, 1 ≤ p.2 := by
      intro p hp
      rcases List.mem_cons.mp hp with rfl | hp
      · exact hlen
      · exact hvals p hp
    have hlen' : 1 ≤ (nodes ++ [some n]).length := by simp
    obtain ⟨R1, R2, R3⟩ := ih resN resI hrun hndL hwfL hclnd0 hunidx' hvals' hlen'
    rw [dirtyList_cons_eq n k ks hcl]
    refine ⟨?_, ?_, R3⟩
    · rw [R1]
      simp
    · intro h
      rw [R2 h]
      simp only [idxGet, List.map_cons, List.mem_cons]
      by_cases hch : n.cnode = h
      · rw [if_pos hch]
        constructor
        · intro _; exact Or.inr (Or.inl hch.symm)
        · intro _; left; omega
      · rw [if_neg hch]
        constructor
        · rintro (hx | hx)
          · exact Or.inl hx
          · exact Or.inr (Or.inr hx)
        · rintro (hx | hx | hx)
          · exact Or.inl hx
          · exact absurd hx.symm hch
          · exact Or.inr hx
  · -- ks = []
    intro links nodes idx resN resI hrun hnd hwfL hksnd hunidx hvals hlen
    unfold collectLinks at hrun
    rw [Except.ok.injEq, Prod.mk.injEq] at hrun
    obtain ⟨h1, h2⟩ := hrun
    subst h1 h2
    refine ⟨by simp [dirtyKids], ?_, hvals⟩
    intro h
    simp [dirtyKids]
  · -- a changed-link name with no link entry: the collector panics
    intro links nodes idx k ks' hf resN resI hrun
    unfold collectLinks at hrun
    rw [hf] at hrun
    simp only [] at hrun
    exact absurd hrun (by simp)
  · -- a changed link with an unresolved target: the collector errors
    intro links nodes idx k ks' l hf ht resN resI hrun
    unfold collectLinks at hrun
    rw [hf] at hrun
    simp only [] at hrun
    rw [ht] at hrun
    simp only [] at hrun
    exact absurd hrun (by simp)
  · -- the recursive visit of a dirty child errored
    intro links nodes idx k ks' l hf tn ht hidx e herr ihn resN resI hrun
    unfold collectLinks at hrun
    rw [hf] at hrun
    simp only [] at hrun
    rw [ht] at hrun
    simp only [] at hrun
    rw [if_pos hidx, herr] at hrun
    simp only [] at hrun
    exact absurd hrun (by simp)
  · -- main step: the dirty child is collected, then the remaining names
    intro links nodes idx k ks' l hf tn ht hidx nodes' idx' hok ihn ihk
    intro resN resI hrun hnd hwfL hksnd hunidx hvals hlen
    unfold collectLinks at hrun
    rw [hf] at hrun
    simp only [] at hrun
    rw [ht] at hrun
    simp only [] at hrun
    rw [if_pos hidx, hok] at hrun
    simp only [] at hrun
    have hsub : (closureN tn).Sublist (closureL links) := by
      have hs := find?_closure_sublist links k l hf
      rw [ht] at hs
      simpa [closureT] using hs
    have hndT : ((closureN tn).map MNode.cnode).Nodup :=
      (hsub.map MNode.cnode).nodup hnd
    have hwfT : wfcl tn = true := by
      have hw := wfclL_find links k l hwfL hf
      rw [ht] at hw
      simpa [wfclT] using hw
    have hunT : ∀ h ∈ (closureN tn).map MNode.cnode, idxGet idx h = 0 := by
      intro h hh
      refine hunidx k (by simp) l hf h ?_
      rw [ht]
      simpa [closureT] using hh
    obtain ⟨E1, E2, E3⟩ := ihn nodes' idx' hok hndT hwfT hunT hvals hlen
    obtain ⟨hk_not, hksnd'⟩ := List.nodup_cons.mp hksnd
    have hunidx' : ∀ k' ∈ ks', ∀ l', links.find? k' = some l' →
        ∀ h ∈ (closureT l'.target).map MNode.cnode, idxGet idx' h = 0 := by
      intro k' hk' l' hf' h hh
      by_cases hz : idxGet idx' h = 0
      · exact hz
      · exfalso
        rcases (E2 h).mp hz with hx | hx
        · exact hx (hunidx k' (by simp [hk']) l' hf' h hh)
        · have hkne : k ≠ k' := fun he => hk_not (he ▸ hk')
          have hx1 : h ∈ (closureT l.target).map MNode.cnode := by
            rw [ht]
            obtain ⟨x, hxd, hxc⟩ := List.mem_map.mp hx
            exact List.mem_map.mpr
              ⟨x, by simpa [closureT] using dirtyList_sub_closure tn x hxd, hxc⟩
          exact find?_closure_disj links k k' l l' hkne hf hf' hnd h hx1 hh
    have hlen' : 1 ≤ nodes'.length := by
      rw [E1]
      simp only [List.length_append]
      omega
    obtain ⟨R1, R2, R3⟩ := ihk resN resI hrun hnd hwfL hksnd' hunidx' E3 hlen'
    have hseg : dirtySeg links k = dirtyList tn := by
      unfold dirtySeg
      rw [hf]
      simp only []
      rw [ht]
    refine ⟨?_, ?_, R3⟩
    · rw [R1, E1, dirtyKids_cons links k ks', hseg]
      simp
    · intro h
      rw [R2 h, E2 h, dirtyKids_cons links k ks', hseg]
      simp only [List.map_append, List.mem_append]
      tauto
  · -- already-indexed skip branch: impossible on an unindexed closure
    intro links nodes idx k ks' l hf tn ht hidx ihk
    intro resN resI hrun hnd hwfL hksnd hunidx hvals hlen
    exfalso
    refine hidx (hunidx k (by simp) l hf tn.cnode ?_)
    rw [ht]
    exact List.mem_map.mpr ⟨tn, by simpa [closureT] using self_mem_closureN tn, rfl⟩

/-- Mapping into `some` and filtering through `id` is the identity. -/
theorem filterMap_id_map_some (L : List MNode) : (L.map some).filterMap id = L := by
  induction L with
  | nil => simp
  | cons a l ih => simp [ih]

/-- C2 (amended): on a sharing-free trie (pairwise-distinct closure hashes)
with well-formed dirty flags, a successful `collectChangedNodes` run from
the root mentions each dirty node's hash at most once, and places every
node at an EARLIER position than each of its dirty children — the opposite
of the claimed children-before-parents order; the commit loop compensates
by writing the collected sequence from its end backwards. -/
theorem c2_collect_order_amended (root : MNode) (res : List (Option MNode)) (idx : Idx)
    (hnd : ((closureN root).map MNode.cnode).Nodup)
    (hwf : wfcl root = true)
    (hrun : collectChangedNodes root [none] [] = .ok (res, idx)) :
    ((res.filterMap id).map MNode.cnode).Nodup ∧
    ∀ (i j : Nat) (p c : MNode), res[i]? = some (some p) → res[j]? = some (some c) →
      dirtyEdge p c → i < j := by
  obtain ⟨E1, _, _⟩ := collect_eq_dirtyList root [none] [] res idx hrun hnd hwf
    (fun h _ => rfl) (fun p hp => absurd hp (List.not_mem_nil p)) (by simp)
  obtain ⟨HN, HP⟩ := dirtyList_nodup_pairwise root hnd hwf
  have hres : res.filterMap id = dirtyList root := by
    rw [E1]
    simp [filterMap_id_map_some]
  refine ⟨by rw [hres]; exact HN, ?_⟩
  intro i j p c hi hj hedge
  rw [E1] at hi hj
  simp only [List.singleton_append] at hi hj
  cases i with
  | zero =>
    rw [List.getElem?_cons_zero] at hi
    exact absurd hi (by simp)
  | succ i' =>
    cases j with
    | zero =>
      rw [List.getElem?_cons_zero] at hj
      exact absurd hj (by simp)
    | succ j' =>
      rw [List.getElem?_cons_succ, List.getElem?_map] at hi hj
      have hip : (dirtyList root)[i']? = some p := by
        rcases hLi : (dirtyList root)[i']? with _ | x
        · rw [hLi] at hi; simp at hi
        · rw [hLi] at hi
          simp at hi
          subst hi
          rfl
      have hjc : (dirtyList root)[j']? = some c := by
        rcases hLj : (dirtyList root)[j']? with _ | x
        · rw [hLj] at hj; simp at hj
        · rw [hLj] at hj
          simp at hj
          subst hj
          rfl
      obtain ⟨hi1, hi2⟩ := List.getElem?_eq_some.mp hip
      obtain ⟨hj1, hj2⟩ := List.getElem?_eq_some.mp hjc
      rcases Nat.lt_trichotomy i' j' with hlt | heq | hgt
      · omega
      · exfalso
        subst heq
        rw [hip] at hjc
        injection hjc with hpc
        subst hpc
        exact absurd (dirtyEdge_size hedge) (lt_irrefl _)
      · exfalso
        have hpw := List.pairwise_iff_getElem.mp HP j' i' hj1 hi1 hgt
        rw [hi2, hj2] at hpw
        exact hpw hedge

/-- C2 witness: the amended ordering theorem applied to the concrete
two-node dirty trie `c2Root` (parent at position 1, dirty child at
position 2). -/
theorem c2_collect_order_amended_witness :
    ((([none, some c2Root, some c2Child] : List (Option MNode)).filterMap id).map
      MNode.cnode).Nodup ∧
    ∀ (i j : Nat) (p c : MNode),
      ([none, some c2Root, some c2Child] : List (Option MNode))[i]? =
        some (some p) →
      ([none, some c2Root, some c2Child] : List (Option MNode))[j]? = some (some c) →
      dirtyEdge p c → i < j :=
  c2_collect_order_amended c2Root [none, some c2Root, some c2Child]
    [(c2Child.cnode, 2), (c2Root.cnode, 1)] (by decide) (by decide)
    (by simp [collectChangedNodes, collectLinks, c2Root, c2Child, idxGet, MLinks.find?])

end StoreIpfs
